import Mathlib

/-!
Shallow embedding of the hi-q (peg solitaire) solver:
`board_manager.py` (board state, move legality, apply/undo) and
`solver.py` (depth-first search with an explicit move-log stack).

Python exceptions are modelled with `Except PyErr`; Python `list` indexing
(including its negative-index wraparound) is modelled by `pyIdx`/`pyGet`/`pySet`.
-/

namespace HiQ

/-- Python exceptions raised by the program: `IndexError` from list indexing
and `ValueError msg` from explicit raises. -/
inductive PyErr where
  | indexError : PyErr
  | valueError : String → PyErr
deriving DecidableEq

/-- `PegPosition` dataclass: three booleans, exactly as in `board_manager.py`. -/
structure PegPosition where
  peg_present : Bool
  is_empty : Bool
  is_valid_position : Bool
deriving DecidableEq

/-- `PegPosition()` — constructor called with no argument: an invalid position. -/
def PegPosition.invalidPos : PegPosition :=
  { peg_present := false, is_empty := false, is_valid_position := false }

/-- `PegPosition(peg_present)` — constructor called with a boolean. -/
def PegPosition.ofBool (pp : Bool) : PegPosition :=
  { peg_present := pp, is_empty := !pp, is_valid_position := true }

/-- `PegPosition.add_peg`: raises unless the position is valid and empty. -/
def PegPosition.add_peg (p : PegPosition) : Except PyErr PegPosition :=
  if !p.is_valid_position then
    .error (.valueError "Not a valid location for a peg")
  else if !p.is_empty then
    .error (.valueError "Peg already present in this location - can't add")
  else
    .ok { p with peg_present := true, is_empty := false }

/-- `PegPosition.remove_peg`: raises unless the position is valid and occupied. -/
def PegPosition.remove_peg (p : PegPosition) : Except PyErr PegPosition :=
  if !p.is_valid_position then
    .error (.valueError "Not a valid location for a peg")
  else if !p.peg_present then
    .error (.valueError "Peg not present in this location - can't remove")
  else
    .ok { p with peg_present := false, is_empty := true }

/-- `Direction` enum with values UP=0, RIGHT=1, DOWN=2, LEFT=3. -/
inductive Direction where
  | UP : Direction
  | RIGHT : Direction
  | DOWN : Direction
  | LEFT : Direction
deriving DecidableEq

/-- Modelled from the spec: `Direction.get_next_direction` is called by
`solver.py` but absent from the sources; the spec fixes the successor order
`Up < Right < Down < Left` with no wraparound ("yields exhausted after Left"). -/
def Direction.get_next_direction : Direction → Option Direction
  | .UP => some .RIGHT
  | .RIGHT => some .DOWN
  | .DOWN => some .LEFT
  | .LEFT => none

def BOARD_ROWS : Nat := 7
def BOARD_COLUMNS : Nat := 7

abbrev Grid := List (List PegPosition)

/-- A recorded move `(origin_row, origin_column, direction)`. -/
abbrev Move := Int × Int × Direction

/-- Python list index resolution: indices in `[0, len)` are used directly,
indices in `[-len, 0)` wrap around, anything else is an `IndexError`. -/
def pyIdx (len : Nat) (i : Int) : Option Nat :=
  if 0 ≤ i ∧ i < (len : Int) then some i.toNat
  else if -(len : Int) ≤ i ∧ i < 0 then some (i + (len : Int)).toNat
  else none

/-- Python `l[i]` (read). -/
def pyGet {α : Type} (l : List α) (i : Int) : Except PyErr α :=
  match pyIdx l.length i with
  | some j =>
    match l[j]? with
    | some a => .ok a
    | none => .error .indexError
  | none => .error .indexError

/-- Python `l[i] = a` (write). -/
def pySet {α : Type} (l : List α) (i : Int) (a : α) : Except PyErr (List α) :=
  match pyIdx l.length i with
  | some j => .ok (l.set j a)
  | none => .error .indexError

/-- Grid access at Nat coordinates (total, with an invalid-cell default);
used on the specification side of theorems. -/
def cellN (g : Grid) (i j : Nat) : PegPosition :=
  (g.getD i []).getD j PegPosition.invalidPos

/-- Grid update at Nat coordinates (no-op out of bounds, like `List.set`). -/
def setCellN (g : Grid) (i j : Nat) (p : PegPosition) : Grid :=
  g.set i ((g.getD i []).set j p)

/-- `Board._generate_board`: all positions invalid, then rows 2..4 and
columns 2..4 set to occupied, then the middle peg cleared. -/
def initGrid : Grid :=
  let g0 : Grid := List.replicate BOARD_ROWS (List.replicate BOARD_COLUMNS
    { peg_present := false, is_empty := false, is_valid_position := false })
  let g1 := (List.range' 2 3).foldl (fun g r =>
    (List.range BOARD_COLUMNS).foldl (fun g c => setCellN g r c (PegPosition.ofBool true)) g) g0
  let g2 := (List.range' 2 3).foldl (fun g c =>
    (List.range BOARD_ROWS).foldl (fun g r => setCellN g r c (PegPosition.ofBool true)) g) g1
  setCellN g2 3 3 (PegPosition.ofBool false)

/-- `Board._count_pegs`: count valid occupied positions. -/
def count_pegs (g : Grid) : Int :=
  g.foldl (fun acc row =>
    row.foldl (fun acc p =>
      if p.is_valid_position then (if p.peg_present then acc + 1 else acc) else acc) acc) 0

/-- `Board`: the grid, the running peg count and the move log. -/
structure Board where
  board : Grid
  num_pegs : Int
  moves : List Move
deriving DecidableEq

/-- `Board.__init__`. -/
def Board.init : Board :=
  { board := initGrid, num_pegs := count_pegs initGrid, moves := [] }

/-- `Board.get_peg`: `self.board[row_index][column_index]` with Python
indexing semantics. -/
def Board.get_peg (b : Board) (row_index column_index : Int) : Except PyErr PegPosition := do
  let row ← pyGet b.board row_index
  pyGet row column_index

/-- `Board._generate_jump_and_target_coords` (the returned direction component
is dropped since callers ignore it): `(jump_coords, target_coords)`. -/
def generate_jump_and_target_coords (row_index column_index : Int) :
    Direction → (Int × Int) × (Int × Int)
  | .UP => ((row_index - 1, column_index), (row_index - 2, column_index))
  | .RIGHT => ((row_index, column_index + 1), (row_index, column_index + 2))
  | .DOWN => ((row_index + 1, column_index), (row_index + 2, column_index))
  | .LEFT => ((row_index, column_index - 1), (row_index, column_index - 2))

/-- Read the cell at Python indices `(r, c)` (helper for the repeated
`self.board[r][c]` pattern). -/
def Board.readCell (b : Board) (r c : Int) : Except PyErr PegPosition := do
  let row ← pyGet b.board r
  pyGet row c

/-- In-place mutation of the cell at Python indices `(r, c)` by a
possibly-raising operation `f` (models `self.board[r][c].op()`). -/
def modifyCell (g : Grid) (r c : Int) (f : PegPosition → Except PyErr PegPosition) :
    Except PyErr Grid := do
  let row ← pyGet g r
  let cell ← pyGet row c
  let cell' ← f cell
  let row' ← pySet row c cell'
  pySet g r row'

/-- `Board.can_peg_move`: bounds-check the target, then origin occupied,
jump occupied, target empty (all valid), in source order. -/
def Board.can_peg_move (b : Board) (row_index column_index : Int) (direction : Direction) :
    Except PyErr Bool := do
  let (jump_coords, target_coords) :=
    generate_jump_and_target_coords row_index column_index direction
  if target_coords.1 < 0 ∨ target_coords.1 ≥ (BOARD_ROWS : Int) ∨
     target_coords.2 < 0 ∨ target_coords.2 ≥ (BOARD_COLUMNS : Int) then
    pure false
  else do
    let origin ← b.readCell row_index column_index
    if !origin.is_valid_position ∨ !origin.peg_present then
      pure false
    else do
      let jumped ← b.readCell jump_coords.1 jump_coords.2
      if !jumped.is_valid_position ∨ !jumped.peg_present then
        pure false
      else do
        let target ← b.readCell target_coords.1 target_coords.2
        if !target.is_valid_position ∨ !target.is_empty then
          pure false
        else
          pure true

/-- `Board.make_move`: record the move, remove the origin and jumped pegs,
add the target peg, decrement the count. -/
def Board.make_move (b : Board) (row_index column_index : Int) (direction : Direction) :
    Except PyErr Board := do
  let (jump_coords, target_coords) :=
    generate_jump_and_target_coords row_index column_index direction
  let moves' := b.moves ++ [(row_index, column_index, direction)]
  let g1 ← modifyCell b.board row_index column_index PegPosition.remove_peg
  let g2 ← modifyCell g1 jump_coords.1 jump_coords.2 PegPosition.remove_peg
  let g3 ← modifyCell g2 target_coords.1 target_coords.2 PegPosition.add_peg
  pure { board := g3, num_pegs := b.num_pegs - 1, moves := moves' }

/-- `Board.undo_last_move`: pop the last move (IndexError when the log is
empty, like Python's `list.pop`), re-add the origin and jumped pegs, remove
the target peg, increment the count. -/
def Board.undo_last_move (b : Board) : Except PyErr Board :=
  match b.moves.getLast? with
  | none => .error .indexError
  | some (origin_row, origin_column, direction) => do
    let moves' := b.moves.dropLast
    let (jump_coords, target_coords) :=
      generate_jump_and_target_coords origin_row origin_column direction
    let g1 ← modifyCell b.board origin_row origin_column PegPosition.add_peg
    let g2 ← modifyCell g1 jump_coords.1 jump_coords.2 PegPosition.add_peg
    let g3 ← modifyCell g2 target_coords.1 target_coords.2 PegPosition.remove_peg
    pure { board := g3, num_pegs := b.num_pegs + 1, moves := moves' }

/-- Modelled from the spec: `board.max_rows` is read by `solver.py` but not
defined in the sources; the spec fixes a 7×7 grid. -/
def Board.max_rows (_ : Board) : Nat := BOARD_ROWS

/-- Modelled from the spec: `board.max_columns` is read by `solver.py` but not
defined in the sources; the spec fixes a 7×7 grid. -/
def Board.max_columns (_ : Board) : Nat := BOARD_COLUMNS

/-! ## The solver (`solver.py`) -/

/-- Python `range(n)` as a list of Ints. -/
def intRange (n : Nat) : List Int := (List.range n).map Int.ofNat

/-- Python `range(lo, hi)` as a list of Ints. -/
def intRangeFrom (lo hi : Int) : List Int :=
  (List.range (hi - lo).toNat).map (fun k => lo + Int.ofNat k)

/-- Rank used to show the direction-successor while-loops terminate. -/
def dirRank : Option Direction → Nat
  | none => 0
  | some .LEFT => 1
  | some .DOWN => 2
  | some .RIGHT => 3
  | some .UP => 4

/-- The `while d is not None` loops of `make_next_move`: try `d`, then
`get_next_direction d`, …; make the first legal move found. -/
def tryDirsWhile (b : Board) (r c : Int) (od : Option Direction) :
    Except PyErr (Option Board) :=
  match od with
  | none => .ok none
  | some d =>
    match b.can_peg_move r c d with
    | .error e => .error e
    | .ok true =>
      match b.make_move r c d with
      | .error e => .error e
      | .ok b2 => .ok (some b2)
    | .ok false => tryDirsWhile b r c (Direction.get_next_direction d)
termination_by dirRank od
decreasing_by cases d <;> decide

/-- The `for d in range(4)` loop of the forward scan, generalized over the
direction list; instantiated with `[UP, RIGHT, DOWN, LEFT]` (= `Direction(0..3)`). -/
def tryDirsList (b : Board) (r c : Int) : List Direction → Except PyErr (Option Board)
  | [] => .ok none
  | d :: rest =>
    match b.can_peg_move r c d with
    | .error e => .error e
    | .ok true =>
      match b.make_move r c d with
      | .error e => .error e
      | .ok b2 => .ok (some b2)
    | .ok false => tryDirsList b r c rest

/-- Advance phase, inner (column) loop of `make_next_move`. -/
def scanRowCols (b : Board) (r : Int) : List Int → Except PyErr (Option Board)
  | [] => .ok none
  | c :: rest =>
    match tryDirsWhile b r c (some .UP) with
    | .error e => .error e
    | .ok (some b2) => .ok (some b2)
    | .ok none => scanRowCols b r rest

/-- Advance phase, outer (row) loop of `make_next_move`. -/
def advScanRows (b : Board) : List Int → Except PyErr (Option Board)
  | [] => .ok none
  | r :: rest =>
    match scanRowCols b r (intRange b.max_columns) with
    | .error e => .error e
    | .ok (some b2) => .ok (some b2)
    | .ok none => advScanRows b rest

/-- Forward scan of the backtrack phase, inner (column) loop, with the
verbatim break condition `(row_index+1 == max_rows) and (column_index+1 <= max_columns)`
and the skip condition `(row_index == last_row) and (column_index <= last_column)`. -/
def fsRowCols (b : Board) (last_row last_column : Int) (r : Int) :
    List Int → Except PyErr (Option Board)
  | [] => .ok none
  | c :: rest =>
    if (r + 1 = (b.max_rows : Int)) ∧ (c + 1 ≤ (b.max_columns : Int)) then
      .ok none
    else if (r = last_row) ∧ (c ≤ last_column) then
      fsRowCols b last_row last_column r rest
    else
      match tryDirsList b r c [.UP, .RIGHT, .DOWN, .LEFT] with
      | .error e => .error e
      | .ok (some b2) => .ok (some b2)
      | .ok none => fsRowCols b last_row last_column r rest

/-- Forward scan of the backtrack phase, outer (row) loop
(`for row_index in range(last_row, board.max_rows)`). -/
def fsRows (b : Board) (last_row last_column : Int) : List Int → Except PyErr (Option Board)
  | [] => .ok none
  | r :: rest =>
    match fsRowCols b last_row last_column r (intRange b.max_columns) with
    | .error e => .error e
    | .ok (some b2) => .ok (some b2)
    | .ok none => fsRows b last_row last_column rest

/-- The whole forward scan resumed at `last_row`. -/
def forwardScan (b : Board) (last_row last_column : Int) : Except PyErr (Option Board) :=
  fsRows b last_row last_column (intRangeFrom last_row (b.max_rows : Int))

/-- Successful `Except` bind splits into two successful stages. -/
theorem bind_ok {ε α β : Type} {x : Except ε α} {f : α → Except ε β} {y : β}
    (h : x >>= f = .ok y) : ∃ a, x = .ok a ∧ f a = .ok y := by
  cases x with
  | error e => simp [Bind.bind, Except.bind] at h
  | ok a => exact ⟨a, rfl, by simpa [Bind.bind, Except.bind] using h⟩

/-- Shape of a successful `undo_last_move` (needed below for termination of
the backtracking loop). -/
theorem undo_ok_shape {b b' : Board} (h : b.undo_last_move = .ok b') :
    b'.moves = b.moves.dropLast ∧ b.moves ≠ [] ∧ b'.num_pegs = b.num_pegs + 1 := by
  unfold Board.undo_last_move at h
  cases hls : b.moves.getLast? with
  | none => rw [hls] at h; exact absurd h (by simp)
  | some m =>
    obtain ⟨orow, ocol, dir⟩ := m
    rw [hls] at h
    obtain ⟨g1, h1, h⟩ := bind_ok h
    obtain ⟨g2, h2, h⟩ := bind_ok h
    obtain ⟨g3, h3, h⟩ := bind_ok h
    simp only [pure, Except.pure, Except.ok.injEq] at h
    subst h
    refine ⟨rfl, ?_, rfl⟩
    intro hnil
    rw [hnil] at hls
    simp at hls

/-- The `while len(board.moves) != 0` backtracking loop of `make_next_move`. -/
def backtrackLoop (b : Board) : Except PyErr (Bool × Board) :=
  match b.moves.getLast? with
  | none => .ok (false, b)
  | some (last_row, last_column, last_direction) =>
    match hundo : b.undo_last_move with
    | .error e => .error e
    | .ok b1 =>
      match tryDirsWhile b1 last_row last_column
          (Direction.get_next_direction last_direction) with
      | .error e => .error e
      | .ok (some b2) => .ok (true, b2)
      | .ok none =>
        match forwardScan b1 last_row last_column with
        | .error e => .error e
        | .ok (some b2) => .ok (true, b2)
        | .ok none => backtrackLoop b1
termination_by b.moves.length
decreasing_by
  obtain ⟨hm, hne, -⟩ := undo_ok_shape hundo
  rw [hm, List.length_dropLast]
  have : 0 < b.moves.length := List.length_pos.mpr hne
  omega

/-- `make_next_move`: the advance scan, then (only if it found nothing) the
backtracking loop; `True`/`False` is whether a move was made. -/
def make_next_move (b : Board) : Except PyErr (Bool × Board) :=
  match advScanRows b (intRange b.max_rows) with
  | .error e => .error e
  | .ok (some b2) => .ok (true, b2)
  | .ok none => backtrackLoop b

/-- `get_any_solution`, with a fuel parameter for the unbounded `while`
loop: `.ok none` means out of fuel, `.ok (some seq)` a returned solution.
Modelled from the spec: `board.print_board_clean()` is called here but absent
from the sources; the spec classifies rendering as read-only with no board
mutation, so it is omitted. -/
def get_any_solution : Nat → Board → Except PyErr (Option (List Move))
  | 0, _ => .ok none
  | fuel + 1, b =>
    if b.num_pegs ≠ 1 then
      match make_next_move b with
      | .error e => .error e
      | .ok (false, _) => .error (.valueError "No solutions found!")
      | .ok (true, b') => get_any_solution fuel b'
    else
      .ok (some b.moves)

/-! ## Specification-side predicates -/

/-- Well-formed grid shape: 7 rows of 7 cells (true of every `Board` the
program builds). -/
def gridWF (g : Grid) : Prop :=
  g.length = BOARD_ROWS ∧ ∀ row ∈ g, row.length = BOARD_COLUMNS

/-- Board well-formedness (grid shape). -/
def Board.WF (b : Board) : Prop := gridWF b.board

instance : DecidablePred gridWF := fun g => by unfold gridWF; infer_instance

instance (b : Board) : Decidable b.WF := by unfold Board.WF; infer_instance

/-- Structural cell invariant: a valid cell is empty iff no peg is present,
and an invalid cell has both flags cleared. -/
def CellInv (p : PegPosition) : Prop :=
  (p.is_valid_position = true → p.is_empty = !p.peg_present) ∧
  (p.is_valid_position = false → p.peg_present = false ∧ p.is_empty = false)

instance : DecidablePred CellInv := fun p => by unfold CellInv; infer_instance

/-- Every cell of the grid satisfies `CellInv`. -/
def GridInv (g : Grid) : Prop := ∀ row ∈ g, ∀ p ∈ row, CellInv p

instance : DecidablePred GridInv := fun g => by unfold GridInv; infer_instance

/-- Pure legality predicate: the three-condition rule of the spec (target in
bounds, origin valid+occupied, jump valid+occupied, target valid+empty). -/
def legalSpec (b : Board) (r c : Int) (d : Direction) : Bool :=
  let jc := (generate_jump_and_target_coords r c d).1
  let tc := (generate_jump_and_target_coords r c d).2
  if tc.1 < 0 ∨ tc.1 ≥ (BOARD_ROWS : Int) ∨ tc.2 < 0 ∨ tc.2 ≥ (BOARD_COLUMNS : Int) then
    false
  else
    let o := cellN b.board r.toNat c.toNat
    let j := cellN b.board jc.1.toNat jc.2.toNat
    let t := cellN b.board tc.1.toNat tc.2.toNat
    o.is_valid_position && o.peg_present && j.is_valid_position && j.peg_present &&
      t.is_valid_position && t.is_empty

/-! ## List and grid access lemmas -/

theorem ok_bind {ε α β : Type} (a : α) (f : α → Except ε β) :
    (Except.ok a : Except ε α) >>= f = f a := rfl

theorem getD_set_self {α : Type} {l : List α} {n : Nat} (a d : α) (h : n < l.length) :
    (l.set n a).getD n d = a := by
  rw [List.getD_eq_getElem?_getD, List.getElem?_set_self h]
  rfl

theorem getD_set_ne {α : Type} {l : List α} {m n : Nat} (a d : α) (h : m ≠ n) :
    (l.set m a).getD n d = l.getD n d := by
  rw [List.getD_eq_getElem?_getD, List.getElem?_set_ne h, List.getD_eq_getElem?_getD]

theorem getD_eq_getElem {α : Type} {l : List α} {n : Nat} (d : α) (h : n < l.length) :
    l.getD n d = l[n] := by
  rw [List.getD_eq_getElem?_getD, List.getElem?_eq_getElem h]
  rfl

theorem set_getD_self {α : Type} (d : α) :
    ∀ (l : List α) (n : Nat), n < l.length → l.set n (l.getD n d) = l := by
  intro l
  induction l with
  | nil => intro n h; simp at h
  | cons a t ih =>
    intro n h
    cases n with
    | zero => simp [List.getD]
    | succ n =>
      simp only [List.getD_cons_succ, List.set_cons_succ, List.cons.injEq, true_and]
      exact ih n (by simpa using h)

theorem list_ext_getD {α : Type} (d : α) {l l' : List α} (hlen : l.length = l'.length)
    (h : ∀ n, l.getD n d = l'.getD n d) : l = l' := by
  apply List.ext_getElem hlen
  intro n h1 h2
  have := h n
  rwa [getD_eq_getElem d h1, getD_eq_getElem d h2] at this

theorem length_setCellN (g : Grid) (i j : Nat) (p : PegPosition) :
    (setCellN g i j p).length = g.length := by
  unfold setCellN; exact List.length_set ..

theorem rowLen_setCellN (g : Grid) (i j : Nat) (p : PegPosition) (i' : Nat) :
    ((setCellN g i j p).getD i' []).length = (g.getD i' []).length := by
  unfold setCellN
  by_cases hii : i = i'
  · subst hii
    by_cases hlen : i < g.length
    · rw [getD_set_self _ _ hlen, List.length_set]
    · rw [List.set_eq_of_length_le (by omega)]
  · rw [getD_set_ne _ _ hii]

theorem cellN_setCellN_self {g : Grid} {i j : Nat} (p : PegPosition)
    (hi : i < g.length) (hj : j < (g.getD i []).length) :
    cellN (setCellN g i j p) i j = p := by
  unfold cellN setCellN
  rw [getD_set_self _ _ hi, getD_set_self _ _ hj]

theorem cellN_setCellN_ne {g : Grid} {i j i' j' : Nat} (p : PegPosition)
    (h : i ≠ i' ∨ j ≠ j') :
    cellN (setCellN g i j p) i' j' = cellN g i' j' := by
  unfold cellN setCellN
  by_cases hii : i = i'
  · subst hii
    have hjj : j ≠ j' := by tauto
    by_cases hlen : i < g.length
    · rw [getD_set_self _ _ hlen, getD_set_ne _ _ hjj]
    · rw [List.set_eq_of_length_le (by omega)]
  · rw [getD_set_ne _ _ hii]

/-- Two grids of the same shape with equal cells everywhere are equal. -/
theorem grid_ext {g g' : Grid} (hlen : g.length = g'.length)
    (hrow : ∀ i, (g.getD i []).length = (g'.getD i []).length)
    (hcell : ∀ i j, cellN g i j = cellN g' i j) : g = g' := by
  apply list_ext_getD [] hlen
  intro i
  exact list_ext_getD _ (hrow i) (fun j => hcell i j)

theorem pyIdx_inb {len : Nat} {i : Int} (h0 : 0 ≤ i) (h1 : i < (len : Int)) :
    pyIdx len i = some i.toNat := by
  unfold pyIdx
  rw [if_pos ⟨h0, h1⟩]

theorem pyGet_inb {α : Type} {l : List α} {i : Int} (d : α)
    (h0 : 0 ≤ i) (h1 : i < (l.length : Int)) :
    pyGet l i = .ok (l.getD i.toNat d) := by
  unfold pyGet
  have hn : i.toNat < l.length := by omega
  simp only [pyIdx_inb h0 h1, List.getElem?_eq_getElem hn, getD_eq_getElem d hn]

theorem pySet_inb {α : Type} {l : List α} {i : Int} (a : α)
    (h0 : 0 ≤ i) (h1 : i < (l.length : Int)) :
    pySet l i a = .ok (l.set i.toNat a) := by
  unfold pySet
  rw [pyIdx_inb h0 h1]

/-- Row length under `gridWF`. -/
theorem gridWF_rowLen {g : Grid} (hwf : gridWF g) {i : Nat} (hi : i < BOARD_ROWS) :
    (g.getD i []).length = BOARD_COLUMNS := by
  obtain ⟨hlen, hrows⟩ := hwf
  have hn : i < g.length := by omega
  rw [getD_eq_getElem [] hn]
  exact hrows _ (List.getElem_mem hn)

/-- `modifyCell` at in-bounds coordinates is `f` on the cell followed by a
functional update. -/
theorem modifyCell_inb {g : Grid} {r c : Int}
    (f : PegPosition → Except PyErr PegPosition)
    (h0 : 0 ≤ r) (h1 : r < (g.length : Int))
    (h2 : 0 ≤ c) (h3 : c < ((g.getD r.toNat []).length : Int)) :
    modifyCell g r c f =
      (f (cellN g r.toNat c.toNat)).map (fun p => setCellN g r.toNat c.toNat p) := by
  unfold modifyCell
  rw [pyGet_inb ([] : List PegPosition) h0 h1, ok_bind,
    pyGet_inb PegPosition.invalidPos h2 h3, ok_bind]
  have hcell : (g.getD r.toNat []).getD c.toNat PegPosition.invalidPos
      = cellN g r.toNat c.toNat := rfl
  rw [hcell]
  cases hf : f (cellN g r.toNat c.toNat) with
  | error e => rfl
  | ok p =>
    rw [ok_bind, pySet_inb p h2 h3, ok_bind, pySet_inb _ h0 h1]
    rfl

/-- In-bounds `readCell` under `gridWF` is the total `cellN` accessor. -/
theorem readCell_inb {b : Board} (hwf : gridWF b.board) {i j : Int}
    (h0 : 0 ≤ i) (h1 : i < (BOARD_ROWS : Int)) (h2 : 0 ≤ j) (h3 : j < (BOARD_COLUMNS : Int)) :
    b.readCell i j = .ok (cellN b.board i.toNat j.toNat) := by
  unfold Board.readCell
  have hlen : b.board.length = BOARD_ROWS := hwf.1
  have hrl : (b.board.getD i.toNat []).length = BOARD_COLUMNS :=
    gridWF_rowLen hwf (by omega)
  rw [pyGet_inb ([] : List PegPosition) h0 (by omega), ok_bind,
    pyGet_inb PegPosition.invalidPos h2 (by omega)]
  rfl

theorem BR_cast : (BOARD_ROWS : Int) = 7 := rfl

theorem BC_cast : (BOARD_COLUMNS : Int) = 7 := rfl

/-- The nested occupancy tests of `can_peg_move` collapse to one boolean. -/
theorem can_chain (o j t : PegPosition) :
    (if !o.is_valid_position ∨ !o.peg_present then (pure false : Except PyErr Bool)
     else if !j.is_valid_position ∨ !j.peg_present then pure false
     else if !t.is_valid_position ∨ !t.is_empty then pure false
     else pure true)
    = .ok (o.is_valid_position && o.peg_present && j.is_valid_position && j.peg_present &&
        t.is_valid_position && t.is_empty) := by
  obtain ⟨opp, oie, ovp⟩ := o
  obtain ⟨jpp, jie, jvp⟩ := j
  obtain ⟨tpp, tie, tvp⟩ := t
  cases ovp <;> cases opp <;> cases jvp <;> cases jpp <;> cases tvp <;> cases tie <;>
    simp [pure, Except.pure]

/-- `can_peg_move` at an in-grid origin never raises and computes the pure
legality predicate. -/
theorem can_eq_legalSpec {b : Board} (hwf : gridWF b.board) {r c : Int}
    (hr0 : 0 ≤ r) (hr1 : r < (BOARD_ROWS : Int)) (hc0 : 0 ≤ c) (hc1 : c < (BOARD_COLUMNS : Int))
    (d : Direction) :
    b.can_peg_move r c d = .ok (legalSpec b r c d) := by
  have hr7 : r < 7 := by rw [BR_cast] at hr1; exact hr1
  have hc7 : c < 7 := by rw [BC_cast] at hc1; exact hc1
  cases d
  case UP =>
    simp only [Board.can_peg_move, legalSpec, generate_jump_and_target_coords]
    split
    next hoob => rfl
    next hoob =>
      simp only [BR_cast, BC_cast] at hoob
      rw [readCell_inb hwf hr0 hr1 hc0 hc1]
      simp only [ok_bind]
      rw [@readCell_inb b hwf (r - 1) c (by omega) (by rw [BR_cast]; omega) hc0 hc1]
      simp only [ok_bind]
      rw [@readCell_inb b hwf (r - 2) c (by omega) (by rw [BR_cast]; omega) hc0 hc1]
      simp only [ok_bind]
      exact can_chain _ _ _
  case RIGHT =>
    simp only [Board.can_peg_move, legalSpec, generate_jump_and_target_coords]
    split
    next hoob => rfl
    next hoob =>
      simp only [BR_cast, BC_cast] at hoob
      rw [readCell_inb hwf hr0 hr1 hc0 hc1]
      simp only [ok_bind]
      rw [@readCell_inb b hwf r (c + 1) hr0 hr1 (by omega) (by rw [BC_cast]; omega)]
      simp only [ok_bind]
      rw [@readCell_inb b hwf r (c + 2) hr0 hr1 (by omega) (by rw [BC_cast]; omega)]
      simp only [ok_bind]
      exact can_chain _ _ _
  case DOWN =>
    simp only [Board.can_peg_move, legalSpec, generate_jump_and_target_coords]
    split
    next hoob => rfl
    next hoob =>
      simp only [BR_cast, BC_cast] at hoob
      rw [readCell_inb hwf hr0 hr1 hc0 hc1]
      simp only [ok_bind]
      rw [@readCell_inb b hwf (r + 1) c (by omega) (by rw [BR_cast]; omega) hc0 hc1]
      simp only [ok_bind]
      rw [@readCell_inb b hwf (r + 2) c (by omega) (by rw [BR_cast]; omega) hc0 hc1]
      simp only [ok_bind]
      exact can_chain _ _ _
  case LEFT =>
    simp only [Board.can_peg_move, legalSpec, generate_jump_and_target_coords]
    split
    next hoob => rfl
    next hoob =>
      simp only [BR_cast, BC_cast] at hoob
      rw [readCell_inb hwf hr0 hr1 hc0 hc1]
      simp only [ok_bind]
      rw [@readCell_inb b hwf r (c - 1) hr0 hr1 (by omega) (by rw [BC_cast]; omega)]
      simp only [ok_bind]
      rw [@readCell_inb b hwf r (c - 2) hr0 hr1 (by omega) (by rw [BC_cast]; omega)]
      simp only [ok_bind]
      exact can_chain _ _ _

theorem BR_eq : BOARD_ROWS = 7 := rfl

theorem BC_eq : BOARD_COLUMNS = 7 := rfl

/-- The cell value after a successful `remove_peg` (and of a valid empty hole). -/
def cellEmptyV : PegPosition :=
  { peg_present := false, is_empty := true, is_valid_position := true }

/-- The cell value after a successful `add_peg` (and of a valid occupied hole). -/
def cellOccV : PegPosition :=
  { peg_present := true, is_empty := false, is_valid_position := true }

theorem remove_peg_ok {p : PegPosition} (h1 : p.is_valid_position = true)
    (h2 : p.peg_present = true) : p.remove_peg = .ok cellEmptyV := by
  obtain ⟨pp, ie, vp⟩ := p
  simp only at h1 h2
  subst h1 h2
  rfl

theorem add_peg_ok {p : PegPosition} (h1 : p.is_valid_position = true)
    (h2 : p.is_empty = true) : p.add_peg = .ok cellOccV := by
  obtain ⟨pp, ie, vp⟩ := p
  simp only at h1 h2
  subst h1 h2
  rfl

theorem gridWF_setCellN {g : Grid} (hwf : gridWF g) {i : Nat} (hi : i < BOARD_ROWS)
    (j : Nat) (p : PegPosition) : gridWF (setCellN g i j p) := by
  obtain ⟨hlen, hrows⟩ := hwf
  refine ⟨by rw [length_setCellN, hlen], ?_⟩
  intro row hrow
  unfold setCellN at hrow
  rcases List.mem_or_eq_of_mem_set hrow with h | h
  · exact hrows _ h
  · subst h
    rw [List.length_set]
    exact gridWF_rowLen ⟨hlen, hrows⟩ hi

/-- Generic shape of the three-cell `modifyCell` chain shared by `make_move`
and `undo_last_move`, when all three cell operations succeed and the three
coordinates are distinct. -/
theorem modify3_pure_eq {g : Grid} (hwf : gridWF g) {a1 a2 b1 b2 c1 c2 : Int}
    {f1 f2 f3 : PegPosition → Except PyErr PegPosition} {v1 v2 v3 : PegPosition}
    (ha1 : 0 ≤ a1) (ha2 : a1 < 7) (ha3 : 0 ≤ a2) (ha4 : a2 < 7)
    (hb1 : 0 ≤ b1) (hb2 : b1 < 7) (hb3 : 0 ≤ b2) (hb4 : b2 < 7)
    (hc1 : 0 ≤ c1) (hc2 : c1 < 7) (hc3 : 0 ≤ c2) (hc4 : c2 < 7)
    (hBA : b1.toNat ≠ a1.toNat ∨ b2.toNat ≠ a2.toNat)
    (hCA : c1.toNat ≠ a1.toNat ∨ c2.toNat ≠ a2.toNat)
    (hCB : c1.toNat ≠ b1.toNat ∨ c2.toNat ≠ b2.toNat)
    (hf1 : f1 (cellN g a1.toNat a2.toNat) = .ok v1)
    (hf2 : f2 (cellN g b1.toNat b2.toNat) = .ok v2)
    (hf3 : f3 (cellN g c1.toNat c2.toNat) = .ok v3)
    (n : Int) (ms : List Move) :
    (modifyCell g a1 a2 f1 >>= fun g1 =>
     modifyCell g1 b1 b2 f2 >>= fun g2 =>
     modifyCell g2 c1 c2 f3 >>= fun g3 =>
     pure (Board.mk g3 n ms)) =
    .ok (Board.mk (setCellN (setCellN (setCellN g a1.toNat a2.toNat v1)
      b1.toNat b2.toNat v2) c1.toNat c2.toNat v3) n ms) := by
  have hlen : g.length = BOARD_ROWS := hwf.1
  have hrow : ∀ i : Nat, i < 7 → (g.getD i []).length = BOARD_COLUMNS := by
    intro i hi
    exact gridWF_rowLen hwf (by rw [BR_eq]; omega)
  rw [modifyCell_inb f1 ha1 (by rw [hlen, BR_cast]; omega) ha3
    (by rw [hrow a1.toNat (by omega), BC_cast]; omega), hf1]
  simp only [Except.map, ok_bind]
  have hwf1 : gridWF (setCellN g a1.toNat a2.toNat v1) :=
    gridWF_setCellN hwf (by rw [BR_eq]; omega) _ _
  have hrow1 : ∀ i : Nat, i < 7 →
      ((setCellN g a1.toNat a2.toNat v1).getD i []).length = BOARD_COLUMNS := by
    intro i hi
    exact gridWF_rowLen hwf1 (by rw [BR_eq]; omega)
  rw [modifyCell_inb f2 hb1 (by rw [hwf1.1, BR_cast]; omega) hb3
    (by rw [hrow1 b1.toNat (by omega), BC_cast]; omega),
    cellN_setCellN_ne v1 (by tauto), hf2]
  simp only [Except.map, ok_bind]
  have hwf2 : gridWF (setCellN (setCellN g a1.toNat a2.toNat v1) b1.toNat b2.toNat v2) :=
    gridWF_setCellN hwf1 (by rw [BR_eq]; omega) _ _
  have hrow2 : ∀ i : Nat, i < 7 →
      ((setCellN (setCellN g a1.toNat a2.toNat v1) b1.toNat b2.toNat v2).getD i []).length
        = BOARD_COLUMNS := by
    intro i hi
    exact gridWF_rowLen hwf2 (by rw [BR_eq]; omega)
  rw [modifyCell_inb f3 hc1 (by rw [hwf2.1, BR_cast]; omega) hc3
    (by rw [hrow2 c1.toNat (by omega), BC_cast]; omega),
    cellN_setCellN_ne v2 (by tauto), cellN_setCellN_ne v1 (by tauto), hf3]
  simp only [Except.map, ok_bind]
  rfl

/-- Jump coordinates of a move, as Nat grid indices. -/
def jumpN (r c : Int) (d : Direction) : Nat × Nat :=
  ((generate_jump_and_target_coords r c d).1.1.toNat,
   (generate_jump_and_target_coords r c d).1.2.toNat)

/-- Target coordinates of a move, as Nat grid indices. -/
def targetN (r c : Int) (d : Direction) : Nat × Nat :=
  ((generate_jump_and_target_coords r c d).2.1.toNat,
   (generate_jump_and_target_coords r c d).2.2.toNat)

/-- A legal move succeeds and produces exactly the three-cell update, the
decremented count and the appended log entry. -/
theorem make_move_legal_eq {b : Board} (hwf : gridWF b.board) {r c : Int} {d : Direction}
    (hr0 : 0 ≤ r) (hr7 : r < 7) (hc0 : 0 ≤ c) (hc7 : c < 7)
    (hleg : legalSpec b r c d = true) :
    b.make_move r c d = .ok (Board.mk
      (setCellN (setCellN (setCellN b.board r.toNat c.toNat cellEmptyV)
        (jumpN r c d).1 (jumpN r c d).2 cellEmptyV)
        (targetN r c d).1 (targetN r c d).2 cellOccV)
      (b.num_pegs - 1) (b.moves ++ [(r, c, d)])) := by
  cases d
  case UP =>
    simp only [legalSpec, generate_jump_and_target_coords] at hleg
    rw [BR_cast, BC_cast] at hleg
    split at hleg
    next hoob => simp at hleg
    next hoob =>
      simp only [Bool.and_eq_true] at hleg
      obtain ⟨⟨⟨⟨⟨h1, h2⟩, h3⟩, h4⟩, h5⟩, h6⟩ := hleg
      unfold Board.make_move
      simp only [generate_jump_and_target_coords, jumpN, targetN]
      exact modify3_pure_eq hwf hr0 hr7 hc0 hc7 (by omega) (by omega) hc0 hc7
        (by omega) (by omega) hc0 hc7 (Or.inl (by omega)) (Or.inl (by omega))
        (Or.inl (by omega)) (remove_peg_ok h1 h2) (remove_peg_ok h3 h4)
        (add_peg_ok h5 h6) _ _
  case RIGHT =>
    simp only [legalSpec, generate_jump_and_target_coords] at hleg
    rw [BR_cast, BC_cast] at hleg
    split at hleg
    next hoob => simp at hleg
    next hoob =>
      simp only [Bool.and_eq_true] at hleg
      obtain ⟨⟨⟨⟨⟨h1, h2⟩, h3⟩, h4⟩, h5⟩, h6⟩ := hleg
      unfold Board.make_move
      simp only [generate_jump_and_target_coords, jumpN, targetN]
      exact modify3_pure_eq hwf hr0 hr7 hc0 hc7 hr0 hr7 (by omega) (by omega)
        hr0 hr7 (by omega) (by omega) (Or.inr (by omega)) (Or.inr (by omega))
        (Or.inr (by omega)) (remove_peg_ok h1 h2) (remove_peg_ok h3 h4)
        (add_peg_ok h5 h6) _ _
  case DOWN =>
    simp only [legalSpec, generate_jump_and_target_coords] at hleg
    rw [BR_cast, BC_cast] at hleg
    split at hleg
    next hoob => simp at hleg
    next hoob =>
      simp only [Bool.and_eq_true] at hleg
      obtain ⟨⟨⟨⟨⟨h1, h2⟩, h3⟩, h4⟩, h5⟩, h6⟩ := hleg
      unfold Board.make_move
      simp only [generate_jump_and_target_coords, jumpN, targetN]
      exact modify3_pure_eq hwf hr0 hr7 hc0 hc7 (by omega) (by omega) hc0 hc7
        (by omega) (by omega) hc0 hc7 (Or.inl (by omega)) (Or.inl (by omega))
        (Or.inl (by omega)) (remove_peg_ok h1 h2) (remove_peg_ok h3 h4)
        (add_peg_ok h5 h6) _ _
  case LEFT =>
    simp only [legalSpec, generate_jump_and_target_coords] at hleg
    rw [BR_cast, BC_cast] at hleg
    split at hleg
    next hoob => simp at hleg
    next hoob =>
      simp only [Bool.and_eq_true] at hleg
      obtain ⟨⟨⟨⟨⟨h1, h2⟩, h3⟩, h4⟩, h5⟩, h6⟩ := hleg
      unfold Board.make_move
      simp only [generate_jump_and_target_coords, jumpN, targetN]
      exact modify3_pure_eq hwf hr0 hr7 hc0 hc7 hr0 hr7 (by omega) (by omega)
        hr0 hr7 (by omega) (by omega) (Or.inr (by omega)) (Or.inr (by omega))
        (Or.inr (by omega)) (remove_peg_ok h1 h2) (remove_peg_ok h3 h4)
        (add_peg_ok h5 h6) _ _

/-- Fields of any successful `make_move` result. -/
theorem make_move_ok_shape {b b' : Board} {r c : Int} {d : Direction}
    (h : b.make_move r c d = .ok b') :
    b'.num_pegs = b.num_pegs - 1 ∧ b'.moves = b.moves ++ [(r, c, d)] := by
  unfold Board.make_move at h
  obtain ⟨g1, h1, h⟩ := bind_ok h
  obtain ⟨g2, h2, h⟩ := bind_ok h
  obtain ⟨g3, h3, h⟩ := bind_ok h
  simp only [pure, Except.pure, Except.ok.injEq] at h
  subst h
  exact ⟨rfl, rfl⟩

theorem cellN_setCellN_selfWF {g : Grid} (hwf : gridWF g) {i j : Nat}
    (hi : i < 7) (hj : j < 7) (p : PegPosition) :
    cellN (setCellN g i j p) i j = p := by
  refine cellN_setCellN_self p (by rw [hwf.1, BR_eq]; omega) ?_
  rw [gridWF_rowLen hwf (by rw [BR_eq]; omega), BC_eq]
  omega

theorem gridInv_cellN {g : Grid} (hinv : GridInv g) (i j : Nat) :
    CellInv (cellN g i j) := by
  unfold cellN
  by_cases hi : i < g.length
  · have hmem : g.getD i [] ∈ g := by
      rw [getD_eq_getElem [] hi]
      exact List.getElem_mem hi
    by_cases hj : j < (g.getD i []).length
    · have hmem2 : (g.getD i []).getD j PegPosition.invalidPos ∈ g.getD i [] := by
        rw [getD_eq_getElem _ hj]
        exact List.getElem_mem hj
      exact hinv _ hmem _ hmem2
    · rw [List.getD_eq_default _ _ (by omega)]
      decide
  · have hrow : g.getD i [] = [] := List.getD_eq_default _ _ (by omega)
    rw [hrow, List.getD_nil]
    decide

theorem cell_eq_occ {p : PegPosition} (hinv : CellInv p)
    (h1 : p.is_valid_position = true) (h2 : p.peg_present = true) : p = cellOccV := by
  obtain ⟨pp, ie, vp⟩ := p
  simp only at h1 h2
  subst h1 h2
  have := hinv.1 rfl
  simp only at this
  subst this
  rfl

theorem cell_eq_empty {p : PegPosition} (hinv : CellInv p)
    (h1 : p.is_valid_position = true) (h2 : p.is_empty = true) : p = cellEmptyV := by
  obtain ⟨pp, ie, vp⟩ := p
  simp only at h1 h2
  subst h1
  have := hinv.1 rfl
  simp only at this
  subst this
  rw [Bool.not_eq_true'] at h2
  subst h2
  rfl

/-- Undoing the three-cell update of a legal move restores the grid exactly. -/
theorem roundtrip_grids {g : Grid} (hwf : gridWF g) {o1 o2 j1 j2 t1 t2 : Nat}
    (hb1 : o1 < 7) (hb2 : o2 < 7) (hb3 : j1 < 7) (hb4 : j2 < 7) (hb5 : t1 < 7) (hb6 : t2 < 7)
    (hJO : j1 ≠ o1 ∨ j2 ≠ o2) (hTO : t1 ≠ o1 ∨ t2 ≠ o2) (hTJ : t1 ≠ j1 ∨ t2 ≠ j2)
    (ho : cellN g o1 o2 = cellOccV) (hj : cellN g j1 j2 = cellOccV)
    (ht : cellN g t1 t2 = cellEmptyV) :
    setCellN (setCellN (setCellN
      (setCellN (setCellN (setCellN g o1 o2 cellEmptyV) j1 j2 cellEmptyV) t1 t2 cellOccV)
      o1 o2 cellOccV) j1 j2 cellOccV) t1 t2 cellEmptyV = g := by
  have hwf1 : gridWF (setCellN g o1 o2 cellEmptyV) :=
    @gridWF_setCellN g hwf o1 (by rw [BR_eq]; omega) o2 cellEmptyV
  have hwf2 := @gridWF_setCellN _ hwf1 j1 (by rw [BR_eq]; omega) j2 cellEmptyV
  have hwf3 := @gridWF_setCellN _ hwf2 t1 (by rw [BR_eq]; omega) t2 cellOccV
  have hwf4 := @gridWF_setCellN _ hwf3 o1 (by rw [BR_eq]; omega) o2 cellOccV
  have hwf5 := @gridWF_setCellN _ hwf4 j1 (by rw [BR_eq]; omega) j2 cellOccV
  apply grid_ext
  · simp only [length_setCellN]
  · intro i
    simp only [rowLen_setCellN]
  · intro i j
    by_cases hT : t1 = i ∧ t2 = j
    · obtain ⟨rfl, rfl⟩ := hT
      rw [cellN_setCellN_selfWF hwf5 hb5 hb6, ht]
    · have dT : t1 ≠ i ∨ t2 ≠ j := not_and_or.mp hT
      rw [cellN_setCellN_ne _ dT]
      by_cases hJ : j1 = i ∧ j2 = j
      · obtain ⟨rfl, rfl⟩ := hJ
        rw [cellN_setCellN_selfWF hwf4 hb3 hb4, hj]
      · have dJ : j1 ≠ i ∨ j2 ≠ j := not_and_or.mp hJ
        rw [cellN_setCellN_ne _ dJ]
        by_cases hO : o1 = i ∧ o2 = j
        · obtain ⟨rfl, rfl⟩ := hO
          rw [cellN_setCellN_selfWF hwf3 hb1 hb2, ho]
        · have dO : o1 ≠ i ∨ o2 ≠ j := not_and_or.mp hO
          rw [cellN_setCellN_ne _ dO, cellN_setCellN_ne _ dT,
            cellN_setCellN_ne _ dJ, cellN_setCellN_ne _ dO]

/-- A legal move's target cell is in bounds. -/
theorem legal_target_bounds {b : Board} {r c : Int} {d : Direction}
    (hleg : legalSpec b r c d = true) :
    0 ≤ (generate_jump_and_target_coords r c d).2.1 ∧
    (generate_jump_and_target_coords r c d).2.1 < 7 ∧
    0 ≤ (generate_jump_and_target_coords r c d).2.2 ∧
    (generate_jump_and_target_coords r c d).2.2 < 7 := by
  simp only [legalSpec, BR_cast, BC_cast] at hleg
  split at hleg
  next hoob => simp at hleg
  next hoob => omega

/-- Applying a legal move and undoing it restores the board exactly
(generic in the jump/target coordinates). -/
theorem undo_make_core {b : Board} (hwf : gridWF b.board) (hinv : GridInv b.board)
    {r c j1v j2v t1v t2v : Int} {d : Direction}
    (hco : generate_jump_and_target_coords r c d = ((j1v, j2v), (t1v, t2v)))
    (hr0 : 0 ≤ r) (hr7 : r < 7) (hc0 : 0 ≤ c) (hc7 : c < 7)
    (hj10 : 0 ≤ j1v) (hj17 : j1v < 7) (hj20 : 0 ≤ j2v) (hj27 : j2v < 7)
    (ht10 : 0 ≤ t1v) (ht17 : t1v < 7) (ht20 : 0 ≤ t2v) (ht27 : t2v < 7)
    (hJO : j1v.toNat ≠ r.toNat ∨ j2v.toNat ≠ c.toNat)
    (hTO : t1v.toNat ≠ r.toNat ∨ t2v.toNat ≠ c.toNat)
    (hTJ : t1v.toNat ≠ j1v.toNat ∨ t2v.toNat ≠ j2v.toNat)
    (hleg : legalSpec b r c d = true) :
    (b.make_move r c d >>= Board.undo_last_move) = .ok b := by
  have hleg2 := hleg
  simp only [legalSpec, hco, BR_cast, BC_cast] at hleg2
  rw [if_neg (by omega)] at hleg2
  simp only [Bool.and_eq_true] at hleg2
  obtain ⟨⟨⟨⟨⟨h1, h2⟩, h3⟩, h4⟩, h5⟩, h6⟩ := hleg2
  have ho : cellN b.board r.toNat c.toNat = cellOccV :=
    cell_eq_occ (gridInv_cellN hinv _ _) h1 h2
  have hjv : cellN b.board j1v.toNat j2v.toNat = cellOccV :=
    cell_eq_occ (gridInv_cellN hinv _ _) h3 h4
  have htv : cellN b.board t1v.toNat t2v.toNat = cellEmptyV :=
    cell_eq_empty (gridInv_cellN hinv _ _) h5 h6
  rw [make_move_legal_eq hwf hr0 hr7 hc0 hc7 hleg, ok_bind]
  simp only [jumpN, targetN, hco]
  unfold Board.undo_last_move
  simp only [List.getLast?_concat, List.dropLast_concat, hco]
  have hwfO := @gridWF_setCellN _ hwf r.toNat (by rw [BR_eq]; omega) c.toNat cellEmptyV
  have hwfJ := @gridWF_setCellN _ hwfO j1v.toNat (by rw [BR_eq]; omega) j2v.toNat cellEmptyV
  have hwfT := @gridWF_setCellN _ hwfJ t1v.toNat (by rw [BR_eq]; omega) t2v.toNat cellOccV
  have aE : PegPosition.add_peg cellEmptyV = .ok cellOccV := rfl
  have rO : PegPosition.remove_peg cellOccV = .ok cellEmptyV := rfl
  have e1 : cellN (setCellN (setCellN (setCellN b.board r.toNat c.toNat cellEmptyV)
      j1v.toNat j2v.toNat cellEmptyV) t1v.toNat t2v.toNat cellOccV) r.toNat c.toNat
      = cellEmptyV := by
    rw [cellN_setCellN_ne _ hTO, cellN_setCellN_ne _ hJO,
      cellN_setCellN_selfWF hwf (by omega) (by omega)]
  have e2 : cellN (setCellN (setCellN (setCellN b.board r.toNat c.toNat cellEmptyV)
      j1v.toNat j2v.toNat cellEmptyV) t1v.toNat t2v.toNat cellOccV) j1v.toNat j2v.toNat
      = cellEmptyV := by
    rw [cellN_setCellN_ne _ hTJ, cellN_setCellN_selfWF hwfO (by omega) (by omega)]
  have e3 : cellN (setCellN (setCellN (setCellN b.board r.toNat c.toNat cellEmptyV)
      j1v.toNat j2v.toNat cellEmptyV) t1v.toNat t2v.toNat cellOccV) t1v.toNat t2v.toNat
      = cellOccV :=
    cellN_setCellN_selfWF hwfJ (by omega) (by omega) _
  rw [modify3_pure_eq hwfT hr0 hr7 hc0 hc7 hj10 hj17 hj20 hj27 ht10 ht17 ht20 ht27
    hJO hTO hTJ (by rw [e1]; exact aE) (by rw [e2]; exact aE) (by rw [e3]; exact rO) _ _]
  rw [roundtrip_grids hwf (by omega) (by omega) (by omega) (by omega) (by omega) (by omega)
    hJO hTO hTJ ho hjv htv, Int.sub_add_cancel]

/-- Make-then-undo is the identity on every well-formed board satisfying the
cell invariant, for every legal move. -/
theorem make_undo_roundtrip {b : Board} (hwf : gridWF b.board) (hinv : GridInv b.board)
    {r c : Int} {d : Direction} (hr0 : 0 ≤ r) (hr7 : r < 7) (hc0 : 0 ≤ c) (hc7 : c < 7)
    (hleg : legalSpec b r c d = true) :
    (b.make_move r c d >>= Board.undo_last_move) = .ok b := by
  have tb := legal_target_bounds hleg
  cases d
  case UP =>
    simp only [generate_jump_and_target_coords] at tb
    exact undo_make_core hwf hinv rfl hr0 hr7 hc0 hc7 (by omega) (by omega) hc0 hc7
      (by omega) (by omega) hc0 hc7 (Or.inl (by omega)) (Or.inl (by omega))
      (Or.inl (by omega)) hleg
  case RIGHT =>
    simp only [generate_jump_and_target_coords] at tb
    exact undo_make_core hwf hinv rfl hr0 hr7 hc0 hc7 hr0 hr7 (by omega) (by omega)
      hr0 hr7 (by omega) (by omega) (Or.inr (by omega)) (Or.inr (by omega))
      (Or.inr (by omega)) hleg
  case DOWN =>
    simp only [generate_jump_and_target_coords] at tb
    exact undo_make_core hwf hinv rfl hr0 hr7 hc0 hc7 (by omega) (by omega) hc0 hc7
      (by omega) (by omega) hc0 hc7 (Or.inl (by omega)) (Or.inl (by omega))
      (Or.inl (by omega)) hleg
  case LEFT =>
    simp only [generate_jump_and_target_coords] at tb
    exact undo_make_core hwf hinv rfl hr0 hr7 hc0 hc7 hr0 hr7 (by omega) (by omega)
      hr0 hr7 (by omega) (by omega) (Or.inr (by omega)) (Or.inr (by omega))
      (Or.inr (by omega)) hleg

/-! ## Preservation of the cell invariant -/

theorem mem_of_getElem? {α : Type} {l : List α} {n : Nat} {a : α}
    (h : l[n]? = some a) : a ∈ l := by
  obtain ⟨hn, rfl⟩ := List.getElem?_eq_some.mp h
  exact List.getElem_mem hn

theorem pyIdx_some_lt {len : Nat} {i : Int} {j : Nat} (h : pyIdx len i = some j) :
    j < len := by
  unfold pyIdx at h
  split_ifs at h with h1 h2 <;> simp only [Option.some.injEq] at h <;> omega

theorem pyGet_ok_shape {α : Type} {l : List α} {i : Int} {a : α}
    (h : pyGet l i = .ok a) :
    ∃ j, pyIdx l.length i = some j ∧ l[j]? = some a := by
  unfold pyGet at h
  split at h
  next j hidx =>
    split at h
    next x hget =>
      simp only [Except.ok.injEq] at h
      subst h
      exact ⟨j, hidx, hget⟩
    next hget => simp at h
  next hidx => simp at h

theorem pySet_ok_shape {α : Type} {l : List α} {i : Int} {a : α} {l' : List α}
    (h : pySet l i a = .ok l') :
    ∃ j, pyIdx l.length i = some j ∧ l' = l.set j a := by
  unfold pySet at h
  split at h
  next j hidx =>
    simp only [Except.ok.injEq] at h
    exact ⟨j, hidx, h.symm⟩
  next hidx => simp at h

theorem add_peg_ok_inv {p p' : PegPosition} (h : p.add_peg = .ok p') : CellInv p' := by
  obtain ⟨pp, ie, vp⟩ := p
  cases vp
  · simp [PegPosition.add_peg] at h
  · cases ie
    · simp [PegPosition.add_peg] at h
    · simp only [PegPosition.add_peg, Bool.not_true, Bool.false_eq_true, if_false,
        Except.ok.injEq] at h
      subst h
      decide

theorem remove_peg_ok_inv {p p' : PegPosition} (h : p.remove_peg = .ok p') : CellInv p' := by
  obtain ⟨pp, ie, vp⟩ := p
  cases vp
  · simp [PegPosition.remove_peg] at h
  · cases pp
    · simp [PegPosition.remove_peg] at h
    · simp only [PegPosition.remove_peg, Bool.not_true, Bool.false_eq_true, if_false,
        Except.ok.injEq] at h
      subst h
      decide

theorem add_peg_ok_valid {p p' : PegPosition} (h : p.add_peg = .ok p') :
    p.is_valid_position = true := by
  obtain ⟨pp, ie, vp⟩ := p
  cases vp
  · simp [PegPosition.add_peg] at h
  · rfl

theorem remove_peg_ok_valid {p p' : PegPosition} (h : p.remove_peg = .ok p') :
    p.is_valid_position = true := by
  obtain ⟨pp, ie, vp⟩ := p
  cases vp
  · simp [PegPosition.remove_peg] at h
  · rfl

/-- A successful `modifyCell` by an invariant-producing operation preserves
the grid invariant. -/
theorem modifyCell_gridInv {g g' : Grid} {r c : Int}
    {f : PegPosition → Except PyErr PegPosition}
    (hpres : ∀ p p', f p = .ok p' → CellInv p')
    (h : modifyCell g r c f = .ok g') (hinv : GridInv g) : GridInv g' := by
  unfold modifyCell at h
  obtain ⟨row, hrow, h⟩ := bind_ok h
  obtain ⟨cell, hcell, h⟩ := bind_ok h
  obtain ⟨cell', hcell', h⟩ := bind_ok h
  obtain ⟨row', hrow', h⟩ := bind_ok h
  obtain ⟨jn, hjn, hrow'eq⟩ := pySet_ok_shape hrow'
  obtain ⟨rn, hrn, hg'eq⟩ := pySet_ok_shape h
  obtain ⟨rg, hrg, hrowval⟩ := pyGet_ok_shape hrow
  subst hg'eq hrow'eq
  intro row2 hrow2mem p hp
  rcases List.mem_or_eq_of_mem_set hrow2mem with hm | hm
  · exact hinv _ hm _ hp
  · subst hm
    rcases List.mem_or_eq_of_mem_set hp with hm2 | hm2
    · exact hinv _ (mem_of_getElem? hrowval) _ hm2
    · subst hm2
      exact hpres _ _ hcell'

/-- A successful `modifyCell` whose operation only succeeds on valid cells
leaves every invalid cell untouched. -/
theorem modifyCell_invalid_unchanged {g g' : Grid} {r c : Int}
    {f : PegPosition → Except PyErr PegPosition}
    (hval : ∀ p p', f p = .ok p' → p.is_valid_position = true)
    (h : modifyCell g r c f = .ok g') (i j : Nat)
    (hbad : (cellN g i j).is_valid_position = false) :
    cellN g' i j = cellN g i j := by
  unfold modifyCell at h
  obtain ⟨row, hrow, h⟩ := bind_ok h
  obtain ⟨cell, hcell, h⟩ := bind_ok h
  obtain ⟨cell', hcell', h⟩ := bind_ok h
  obtain ⟨row', hrow', h⟩ := bind_ok h
  obtain ⟨jn, hjn, hrow'eq⟩ := pySet_ok_shape hrow'
  obtain ⟨rn, hrn, hg'eq⟩ := pySet_ok_shape h
  obtain ⟨rg, hrg, hrowval⟩ := pyGet_ok_shape hrow
  obtain ⟨cg, hcg, hcellval⟩ := pyGet_ok_shape hcell
  have hrg_eq : rg = rn := Option.some.inj (hrg.symm.trans hrn)
  have hcg_eq : cg = jn := Option.some.inj (hcg.symm.trans hjn)
  rw [← hrg_eq] at hg'eq
  rw [← hcg_eq] at hrow'eq
  subst hg'eq hrow'eq
  unfold cellN at hbad ⊢
  by_cases hir : i = rg
  · rw [hir] at hbad ⊢
    have hlt : rg < g.length := pyIdx_some_lt hrg
    obtain ⟨hlta, hrowelem⟩ := List.getElem?_eq_some.mp hrowval
    have hrowD : g.getD rg [] = row := by rw [getD_eq_getElem [] hlt]; exact hrowelem
    rw [getD_set_self _ _ hlt]
    rw [hrowD] at hbad ⊢
    by_cases hjc : j = cg
    · rw [hjc] at hbad ⊢
      have hlt2 : cg < row.length := pyIdx_some_lt hcg
      obtain ⟨hltb, hcellelem⟩ := List.getElem?_eq_some.mp hcellval
      have hcellD : row.getD cg PegPosition.invalidPos = cell := by
        rw [getD_eq_getElem _ hlt2]; exact hcellelem
      rw [hcellD] at hbad
      exact absurd (hval _ _ hcell') (by rw [hbad]; simp)
    · rw [getD_set_ne _ _ (fun hx => hjc hx.symm)]
  · rw [getD_set_ne _ _ (fun hx => hir hx.symm)]

/-- `make_move` preserves the structural cell invariant. -/
theorem make_move_gridInv {b b' : Board} {r c : Int} {d : Direction}
    (h : b.make_move r c d = .ok b') (hinv : GridInv b.board) : GridInv b'.board := by
  unfold Board.make_move at h
  obtain ⟨g1, h1, h⟩ := bind_ok h
  obtain ⟨g2, h2, h⟩ := bind_ok h
  obtain ⟨g3, h3, h⟩ := bind_ok h
  simp only [pure, Except.pure, Except.ok.injEq] at h
  subst h
  exact modifyCell_gridInv (fun _ _ hp => add_peg_ok_inv hp) h3
    (modifyCell_gridInv (fun _ _ hp => remove_peg_ok_inv hp) h2
      (modifyCell_gridInv (fun _ _ hp => remove_peg_ok_inv hp) h1 hinv))

/-- `undo_last_move` preserves the structural cell invariant. -/
theorem undo_gridInv {b b' : Board} (h : b.undo_last_move = .ok b')
    (hinv : GridInv b.board) : GridInv b'.board := by
  unfold Board.undo_last_move at h
  cases hls : b.moves.getLast? with
  | none => rw [hls] at h; exact absurd h (by simp)
  | some m =>
    obtain ⟨orow, ocol, dir⟩ := m
    rw [hls] at h
    obtain ⟨g1, h1, h⟩ := bind_ok h
    obtain ⟨g2, h2, h⟩ := bind_ok h
    obtain ⟨g3, h3, h⟩ := bind_ok h
    simp only [pure, Except.pure, Except.ok.injEq] at h
    subst h
    exact modifyCell_gridInv (fun _ _ hp => remove_peg_ok_inv hp) h3
      (modifyCell_gridInv (fun _ _ hp => add_peg_ok_inv hp) h2
        (modifyCell_gridInv (fun _ _ hp => add_peg_ok_inv hp) h1 hinv))

/-- `make_move` never changes an invalid cell. -/
theorem make_move_invalid_unchanged {b b' : Board} {r c : Int} {d : Direction}
    (h : b.make_move r c d = .ok b') (i j : Nat)
    (hbad : (cellN b.board i j).is_valid_position = false) :
    cellN b'.board i j = cellN b.board i j := by
  unfold Board.make_move at h
  obtain ⟨g1, h1, h⟩ := bind_ok h
  obtain ⟨g2, h2, h⟩ := bind_ok h
  obtain ⟨g3, h3, h⟩ := bind_ok h
  simp only [pure, Except.pure, Except.ok.injEq] at h
  subst h
  have e1 := modifyCell_invalid_unchanged (fun _ _ hp => remove_peg_ok_valid hp) h1 i j hbad
  have e2 := modifyCell_invalid_unchanged (fun _ _ hp => remove_peg_ok_valid hp) h2 i j
    (by rw [e1]; exact hbad)
  have e3 := modifyCell_invalid_unchanged (fun _ _ hp => add_peg_ok_valid hp) h3 i j
    (by rw [e2, e1]; exact hbad)
  show cellN g3 i j = cellN b.board i j
  rw [e3, e2, e1]

/-- `undo_last_move` never changes an invalid cell. -/
theorem undo_invalid_unchanged {b b' : Board} (h : b.undo_last_move = .ok b') (i j : Nat)
    (hbad : (cellN b.board i j).is_valid_position = false) :
    cellN b'.board i j = cellN b.board i j := by
  unfold Board.undo_last_move at h
  cases hls : b.moves.getLast? with
  | none => rw [hls] at h; exact absurd h (by simp)
  | some m =>
    obtain ⟨orow, ocol, dir⟩ := m
    rw [hls] at h
    obtain ⟨g1, h1, h⟩ := bind_ok h
    obtain ⟨g2, h2, h⟩ := bind_ok h
    obtain ⟨g3, h3, h⟩ := bind_ok h
    simp only [pure, Except.pure, Except.ok.injEq] at h
    subst h
    have e1 := modifyCell_invalid_unchanged (fun _ _ hp => add_peg_ok_valid hp) h1 i j hbad
    have e2 := modifyCell_invalid_unchanged (fun _ _ hp => add_peg_ok_valid hp) h2 i j
      (by rw [e1]; exact hbad)
    have e3 := modifyCell_invalid_unchanged (fun _ _ hp => remove_peg_ok_valid hp) h3 i j
      (by rw [e2, e1]; exact hbad)
    show cellN g3 i j = cellN b.board i j
    rw [e3, e2, e1]

/-! ## Solver analysis -/

/-- The direction chain visited by the `while d is not None` loop. -/
def dirsChain : Option Direction → List Direction
  | none => []
  | some .UP => [.UP, .RIGHT, .DOWN, .LEFT]
  | some .RIGHT => [.RIGHT, .DOWN, .LEFT]
  | some .DOWN => [.DOWN, .LEFT]
  | some .LEFT => [.LEFT]

theorem tryDirsWhile_eq_chain (b : Board) (r c : Int) :
    ∀ od, tryDirsWhile b r c od = tryDirsList b r c (dirsChain od) := by
  have hnone : tryDirsWhile b r c none = .ok none := by rw [tryDirsWhile]
  have hL : tryDirsWhile b r c (some .LEFT) = tryDirsList b r c [.LEFT] := by
    rw [tryDirsWhile]
    simp only [Direction.get_next_direction, hnone, tryDirsList]
  have hD : tryDirsWhile b r c (some .DOWN) = tryDirsList b r c [.DOWN, .LEFT] := by
    rw [tryDirsWhile]
    simp only [Direction.get_next_direction, hL, tryDirsList]
  have hR : tryDirsWhile b r c (some .RIGHT) = tryDirsList b r c [.RIGHT, .DOWN, .LEFT] := by
    rw [tryDirsWhile]
    simp only [Direction.get_next_direction, hD, tryDirsList]
  have hU : tryDirsWhile b r c (some .UP) =
      tryDirsList b r c [.UP, .RIGHT, .DOWN, .LEFT] := by
    rw [tryDirsWhile]
    simp only [Direction.get_next_direction, hR, tryDirsList]
  intro od
  cases od with
  | none => exact hnone
  | some d => cases d <;> simp only [dirsChain] <;> assumption

/-- Decidable move legality test (true iff `can_peg_move` returns ok true). -/
def canB (b : Board) (m : Int × Int × Direction) : Bool :=
  match b.can_peg_move m.1 m.2.1 m.2.2 with
  | .ok true => true
  | _ => false

/-- Apply the move found by a scan (if any). -/
def applyFound (b : Board) : Option (Int × Int × Direction) → Except PyErr (Option Board)
  | none => .ok none
  | some (r, c, d) =>
    match b.make_move r c d with
    | .error e => .error e
    | .ok b2 => .ok (some b2)

/-- The advance phase's scan order: row-major cells, directions
`Up, Right, Down, Left` at each cell. -/
def advanceOrder : List (Int × Int × Direction) :=
  (intRange BOARD_ROWS).flatMap (fun r =>
    (intRange BOARD_COLUMNS).flatMap (fun c =>
      [Direction.UP, .RIGHT, .DOWN, .LEFT].map (fun d => (r, c, d))))

/-- The first legal move in the advance scan order. -/
def firstLegal (b : Board) : Option (Int × Int × Direction) :=
  advanceOrder.find? (canB b)

theorem tryDirsList_eq_find (b : Board) (r c : Int) (ds : List Direction)
    (hne : ∀ d ∈ ds, ∃ bl, b.can_peg_move r c d = .ok bl) :
    tryDirsList b r c ds =
      applyFound b (((ds.map (fun d => (r, c, d))).find? (canB b))) := by
  induction ds with
  | nil => rfl
  | cons d rest ih =>
    obtain ⟨bl, hbl⟩ := hne d (List.mem_cons_self d rest)
    have hcb : canB b (r, c, d) = bl := by
      cases bl <;> simp [canB, hbl]
    simp only [List.map_cons]
    cases bl with
    | false =>
      rw [List.find?_cons_of_neg _ (by rw [hcb]; exact Bool.false_ne_true)]
      simp only [tryDirsList, hbl]
      exact ih (fun d2 hd2 => hne d2 (List.mem_cons_of_mem _ hd2))
    | true =>
      rw [List.find?_cons_of_pos _ hcb]
      simp only [tryDirsList, hbl, applyFound]

theorem scanRowCols_eq_find (b : Board) (r : Int) (cs : List Int)
    (hne : ∀ c ∈ cs, ∀ d, ∃ bl, b.can_peg_move r c d = .ok bl) :
    scanRowCols b r cs =
      applyFound b ((cs.flatMap (fun c => [Direction.UP, .RIGHT, .DOWN, .LEFT].map
        (fun d => (r, c, d)))).find? (canB b)) := by
  induction cs with
  | nil => rfl
  | cons c rest ih =>
    rw [List.flatMap_cons, List.find?_append]
    have hstep : tryDirsWhile b r c (some .UP) =
        applyFound b ((([Direction.UP, .RIGHT, .DOWN, .LEFT].map
          (fun d => (r, c, d))).find? (canB b))) := by
      rw [tryDirsWhile_eq_chain b r c (some .UP)]
      exact tryDirsList_eq_find b r c _ (fun d _ => hne c (List.mem_cons_self c rest) d)
    simp only [scanRowCols, hstep]
    cases hfd : ([Direction.UP, .RIGHT, .DOWN, .LEFT].map (fun d => (r, c, d))).find?
        (canB b) with
    | some m =>
      obtain ⟨mr, mc, md⟩ := m
      simp only [Option.or, applyFound]
      cases hm : b.make_move mr mc md with
      | error e => rfl
      | ok b2 => rfl
    | none =>
      simp only [Option.or, applyFound]
      exact ih (fun c2 hc2 => hne c2 (List.mem_cons_of_mem _ hc2))

theorem intRange_mem {n : Nat} {x : Int} (h : x ∈ intRange n) : 0 ≤ x ∧ x < (n : Int) := by
  unfold intRange at h
  rw [List.mem_map] at h
  obtain ⟨k, hk, rfl⟩ := h
  rw [List.mem_range] at hk
  simp only [Int.ofNat_eq_coe]
  omega

theorem intRangeFrom_mem {lo hi x : Int} (h : x ∈ intRangeFrom lo hi) :
    lo ≤ x ∧ x < hi := by
  unfold intRangeFrom at h
  rw [List.mem_map] at h
  obtain ⟨k, hk, rfl⟩ := h
  rw [List.mem_range] at hk
  simp only [Int.ofNat_eq_coe]
  omega

theorem advScanRows_eq_find (b : Board) (rs : List Int)
    (hne : ∀ r ∈ rs, ∀ c ∈ intRange b.max_columns, ∀ d, ∃ bl, b.can_peg_move r c d = .ok bl) :
    advScanRows b rs =
      applyFound b ((rs.flatMap (fun r => (intRange b.max_columns).flatMap
        (fun c => [Direction.UP, .RIGHT, .DOWN, .LEFT].map (fun d => (r, c, d))))).find?
        (canB b)) := by
  induction rs with
  | nil => rfl
  | cons rI rest ih =>
    rw [List.flatMap_cons, List.find?_append]
    have hstep := scanRowCols_eq_find b rI (intRange b.max_columns)
      (fun c hc d => hne rI (List.mem_cons_self rI rest) c hc d)
    simp only [advScanRows, hstep]
    cases hfd : ((intRange b.max_columns).flatMap (fun c =>
        [Direction.UP, .RIGHT, .DOWN, .LEFT].map (fun d => (rI, c, d)))).find? (canB b) with
    | some m =>
      obtain ⟨mr, mc, md⟩ := m
      simp only [Option.or, applyFound]
      cases hm : b.make_move mr mc md with
      | error e => rfl
      | ok b2 => rfl
    | none =>
      simp only [Option.or, applyFound]
      exact ih (fun r2 h2 => hne r2 (List.mem_cons_of_mem _ h2))

/-- Every in-grid legality test evaluates without raising. -/
theorem can_no_error {b : Board} (hwf : gridWF b.board) {r c : Int}
    (hr : r ∈ intRange b.max_rows) (hc : c ∈ intRange b.max_columns) (d : Direction) :
    ∃ bl, b.can_peg_move r c d = .ok bl := by
  obtain ⟨hr0, hr1⟩ := intRange_mem hr
  obtain ⟨hc0, hc1⟩ := intRange_mem hc
  exact ⟨legalSpec b r c d, can_eq_legalSpec hwf hr0 hr1 hc0 hc1 d⟩

/-- `make_next_move`: the advance phase applies exactly the first legal move
of the row-major/direction-ordered scan, and drops to the backtracking loop
exactly when no legal move exists. -/
theorem make_next_move_eq (b : Board) (hwf : gridWF b.board) :
    make_next_move b =
      match firstLegal b with
      | none => backtrackLoop b
      | some (r, c, d) => (b.make_move r c d).map (fun b2 => (true, b2)) := by
  unfold make_next_move
  rw [advScanRows_eq_find b (intRange b.max_rows)
    (fun r hr c hc d => can_no_error hwf hr hc d)]
  have hord : ((intRange b.max_rows).flatMap (fun r => (intRange b.max_columns).flatMap
      (fun c => [Direction.UP, .RIGHT, .DOWN, .LEFT].map (fun d => (r, c, d)))))
      = advanceOrder := rfl
  rw [hord]
  have hfl : List.find? (canB b) advanceOrder = firstLegal b := rfl
  rw [hfl]
  cases hf : firstLegal b with
  | none => rfl
  | some m =>
    obtain ⟨mr, mc, md⟩ := m
    simp only [applyFound]
    cases hm : b.make_move mr mc md with
    | error e => rfl
    | ok b2 => rfl

/-! ## Forward-scan (backtrack phase) analysis -/

/-- At the last row, the verbatim break condition fires on the very first
column tested, so the row contributes nothing. -/
theorem fsRowCols_break {b : Board} {last_row last_column c : Int} {rest : List Int}
    (hc : c + 1 ≤ (b.max_columns : Int)) :
    fsRowCols b last_row last_column 6 (c :: rest) = .ok none := by
  have hmr : (b.max_rows : Int) = 7 := rfl
  simp only [fsRowCols]
  rw [if_pos ⟨by rw [hmr]; decide, hc⟩]

/-- The whole final row is skipped by the forward scan. -/
theorem fsRowCols_row6 (b : Board) (last_row last_column : Int) :
    fsRowCols b last_row last_column 6 (intRange b.max_columns) = .ok none := by
  have h7 : intRange b.max_columns = [0, 1, 2, 3, 4, 5, 6] := rfl
  rw [h7]
  exact fsRowCols_break (by exact le_refl _ |>.trans (by norm_num [Board.max_columns, BOARD_COLUMNS]))

theorem tryDirsList_ok_last {b : Board} {r c : Int} {ds : List Direction} {b2 : Board}
    (h : tryDirsList b r c ds = .ok (some b2)) :
    ∃ d, b2.moves.getLast? = some (r, c, d) := by
  induction ds with
  | nil => simp [tryDirsList] at h
  | cons d rest ih =>
    simp only [tryDirsList] at h
    split at h
    · simp at h
    · split at h
      · simp at h
      next b2' hmk =>
        simp only [Except.ok.injEq, Option.some.injEq] at h
        subst h
        refine ⟨d, ?_⟩
        rw [(make_move_ok_shape hmk).2]
        exact List.getLast?_concat _
    · exact ih h

theorem fsRowCols_ok_last {b : Board} {last_row last_column rI : Int} {cs : List Int}
    {b2 : Board} (h : fsRowCols b last_row last_column rI cs = .ok (some b2)) :
    ∃ c d, b2.moves.getLast? = some (rI, c, d) := by
  induction cs with
  | nil => simp [fsRowCols] at h
  | cons c rest ih =>
    simp only [fsRowCols] at h
    split at h
    · simp at h
    · split at h
      · exact ih h
      · split at h
        · simp at h
        next b2' hlist =>
          simp only [Except.ok.injEq, Option.some.injEq] at h
          subst h
          obtain ⟨d, hd⟩ := tryDirsList_ok_last hlist
          exact ⟨c, d, hd⟩
        · exact ih h

theorem fsRows_ok_last {b : Board} {last_row last_column : Int} {rows : List Int}
    {b2 : Board} (hrows : ∀ x ∈ rows, x ≤ 6)
    (h : fsRows b last_row last_column rows = .ok (some b2)) :
    ∃ rI c d, b2.moves.getLast? = some (rI, c, d) ∧ rI < 6 := by
  induction rows with
  | nil => simp [fsRows] at h
  | cons rI rest ih =>
    simp only [fsRows] at h
    split at h
    · simp at h
    next b2' hrow =>
      simp only [Except.ok.injEq, Option.some.injEq] at h
      subst h
      by_cases hr6 : rI = 6
      · subst hr6
        rw [fsRowCols_row6] at hrow
        simp at hrow
      · obtain ⟨c, d, hd⟩ := fsRowCols_ok_last hrow
        exact ⟨rI, c, d, hd, lt_of_le_of_ne (hrows rI (List.mem_cons_self rI rest)) hr6⟩
    · exact ih (fun x hx => hrows x (List.mem_cons_of_mem _ hx)) h

/-- The forward scan never applies a move whose origin is in the final row. -/
theorem forwardScan_no_last_row {b : Board} {last_row last_column : Int} {b2 : Board}
    (h : forwardScan b last_row last_column = .ok (some b2)) :
    ∃ rI c d, b2.moves.getLast? = some (rI, c, d) ∧ rI < 6 := by
  unfold forwardScan at h
  refine fsRows_ok_last ?_ h
  intro x hx
  have := intRangeFrom_mem hx
  have hmr : (b.max_rows : Int) = 7 := rfl
  omega

/-! ## Peg-count accounting -/

theorem tryDirsList_num {b : Board} {r c : Int} {ds : List Direction} {b2 : Board}
    (h : tryDirsList b r c ds = .ok (some b2)) : b2.num_pegs = b.num_pegs - 1 := by
  induction ds with
  | nil => simp [tryDirsList] at h
  | cons d rest ih =>
    simp only [tryDirsList] at h
    split at h
    · simp at h
    · split at h
      · simp at h
      next b2' hmk =>
        simp only [Except.ok.injEq, Option.some.injEq] at h
        subst h
        exact (make_move_ok_shape hmk).1
    · exact ih h

theorem tryDirsWhile_num {b : Board} {r c : Int} {od : Option Direction} {b2 : Board}
    (h : tryDirsWhile b r c od = .ok (some b2)) : b2.num_pegs = b.num_pegs - 1 := by
  rw [tryDirsWhile_eq_chain] at h
  exact tryDirsList_num h

theorem scanRowCols_num {b : Board} {r : Int} {cs : List Int} {b2 : Board}
    (h : scanRowCols b r cs = .ok (some b2)) : b2.num_pegs = b.num_pegs - 1 := by
  induction cs with
  | nil => simp [scanRowCols] at h
  | cons c rest ih =>
    simp only [scanRowCols] at h
    split at h
    · simp at h
    next b2' hw =>
      simp only [Except.ok.injEq, Option.some.injEq] at h
      subst h
      exact tryDirsWhile_num hw
    · exact ih h

theorem advScanRows_num {b : Board} {rs : List Int} {b2 : Board}
    (h : advScanRows b rs = .ok (some b2)) : b2.num_pegs = b.num_pegs - 1 := by
  induction rs with
  | nil => simp [advScanRows] at h
  | cons rI rest ih =>
    simp only [advScanRows] at h
    split at h
    · simp at h
    next b2' hrow =>
      simp only [Except.ok.injEq, Option.some.injEq] at h
      subst h
      exact scanRowCols_num hrow
    · exact ih h

theorem fsRowCols_num {b : Board} {last_row last_column rI : Int} {cs : List Int}
    {b2 : Board} (h : fsRowCols b last_row last_column rI cs = .ok (some b2)) :
    b2.num_pegs = b.num_pegs - 1 := by
  induction cs with
  | nil => simp [fsRowCols] at h
  | cons c rest ih =>
    simp only [fsRowCols] at h
    split at h
    · simp at h
    · split at h
      · exact ih h
      · split at h
        · simp at h
        next b2' hlist =>
          simp only [Except.ok.injEq, Option.some.injEq] at h
          subst h
          exact tryDirsList_num hlist
        · exact ih h

theorem fsRows_num {b : Board} {last_row last_column : Int} {rows : List Int} {b2 : Board}
    (h : fsRows b last_row last_column rows = .ok (some b2)) :
    b2.num_pegs = b.num_pegs - 1 := by
  induction rows with
  | nil => simp [fsRows] at h
  | cons rI rest ih =>
    simp only [fsRows] at h
    split at h
    · simp at h
    next b2' hrow =>
      simp only [Except.ok.injEq, Option.some.injEq] at h
      subst h
      exact fsRowCols_num hrow
    · exact ih h

/-- The backtracking loop never decreases the peg count. -/
theorem backtrackLoop_num_aux : ∀ (n : Nat) (b : Board), b.moves.length ≤ n →
    ∀ {flag : Bool} {b2 : Board}, backtrackLoop b = .ok (flag, b2) →
      b.num_pegs ≤ b2.num_pegs := by
  intro n
  induction n with
  | zero =>
    intro b hlen flag b2 h
    have hnil : b.moves = [] := List.length_eq_zero.mp (Nat.le_zero.mp hlen)
    rw [backtrackLoop, hnil, List.getLast?_nil] at h
    simp only [Except.ok.injEq, Prod.mk.injEq] at h
    obtain ⟨-, hb⟩ := h
    subst hb
    exact le_refl _
  | succ n ih =>
    intro b hlen flag b2 h
    rw [backtrackLoop] at h
    cases hls : b.moves.getLast? with
    | none =>
      rw [hls] at h
      simp only [Except.ok.injEq, Prod.mk.injEq] at h
      obtain ⟨-, hb⟩ := h
      subst hb
      exact le_refl _
    | some m =>
      obtain ⟨lr, lc, ld⟩ := m
      rw [hls] at h
      simp only [] at h
      split at h
      · simp at h
      next b1 hundo =>
        split at h
        · simp at h
        next b2' hw =>
          simp only [Except.ok.injEq, Prod.mk.injEq] at h
          obtain ⟨-, hb⟩ := h
          subst hb
          have h1 := tryDirsWhile_num hw
          have h2 := (undo_ok_shape hundo).2.2
          omega
        next hw =>
          split at h
          · simp at h
          next b2' hfs =>
            simp only [Except.ok.injEq, Prod.mk.injEq] at h
            obtain ⟨-, hb⟩ := h
            have h1 : b2'.num_pegs = b1.num_pegs - 1 := by
              unfold forwardScan at hfs
              exact fsRows_num hfs
            have h2 := (undo_ok_shape hundo).2.2
            rw [← hb]
            omega
          next hfs =>
            have h2 := undo_ok_shape hundo
            have hlen1 : b1.moves.length ≤ n := by
              rw [h2.1, List.length_dropLast]
              have : 0 < b.moves.length := List.length_pos.mpr h2.2.1
              omega
            have := ih b1 hlen1 h
            omega

/-- One solver step decreases the peg count by at most one. -/
theorem make_next_move_num {b : Board} {flag : Bool} {b2 : Board}
    (h : make_next_move b = .ok (flag, b2)) : b.num_pegs - 1 ≤ b2.num_pegs := by
  unfold make_next_move at h
  split at h
  · simp at h
  next b2' hadv =>
    simp only [Except.ok.injEq, Prod.mk.injEq] at h
    obtain ⟨-, hb⟩ := h
    subst hb
    have := advScanRows_num hadv
    omega
  next hadv =>
    have := backtrackLoop_num_aux b.moves.length b (le_refl _) h
    omega

/-! ## No internal error masquerades as the no-solution error -/

/-- An error other than the explicit no-solution raise of `get_any_solution`. -/
def benignErr (e : PyErr) : Prop := e ≠ PyErr.valueError "No solutions found!"

instance : DecidablePred benignErr := fun e => by unfold benignErr; infer_instance

theorem bind_error {ε α β : Type} {x : Except ε α} {f : α → Except ε β} {e : ε}
    (h : x >>= f = .error e) : x = .error e ∨ ∃ a, x = .ok a ∧ f a = .error e := by
  cases x with
  | error e' =>
    simp only [Bind.bind, Except.bind, Except.error.injEq] at h
    subst h
    exact Or.inl rfl
  | ok a => exact Or.inr ⟨a, rfl, by simpa [Bind.bind, Except.bind] using h⟩

theorem pyGet_err {α : Type} {l : List α} {i : Int} {e : PyErr}
    (h : pyGet l i = .error e) : e = .indexError := by
  unfold pyGet at h
  split at h
  · split at h
    · simp at h
    · simp only [Except.error.injEq] at h
      exact h.symm
  · simp only [Except.error.injEq] at h
    exact h.symm

theorem pySet_err {α : Type} {l : List α} {i : Int} {a : α} {e : PyErr}
    (h : pySet l i a = .error e) : e = .indexError := by
  unfold pySet at h
  split at h
  · simp at h
  · simp only [Except.error.injEq] at h
    exact h.symm

theorem add_peg_err {p : PegPosition} {e : PyErr} (h : p.add_peg = .error e) :
    benignErr e := by
  unfold PegPosition.add_peg at h
  split_ifs at h <;> simp only [Except.error.injEq] at h <;> rw [← h] <;> decide

theorem remove_peg_err {p : PegPosition} {e : PyErr} (h : p.remove_peg = .error e) :
    benignErr e := by
  unfold PegPosition.remove_peg at h
  split_ifs at h <;> simp only [Except.error.injEq] at h <;> rw [← h] <;> decide

theorem modifyCell_err {g : Grid} {r c : Int} {f : PegPosition → Except PyErr PegPosition}
    {e : PyErr} (hf : ∀ p e', f p = .error e' → benignErr e')
    (h : modifyCell g r c f = .error e) : benignErr e := by
  unfold modifyCell at h
  rcases bind_error h with h1 | ⟨row, hrow, h⟩
  · rw [pyGet_err h1]; decide
  rcases bind_error h with h1 | ⟨cell, hcell, h⟩
  · rw [pyGet_err h1]; decide
  rcases bind_error h with h1 | ⟨cell', hcell', h⟩
  · exact hf _ _ h1
  rcases bind_error h with h1 | ⟨row', hrow', h⟩
  · rw [pySet_err h1]; decide
  · rw [pySet_err h]; decide

theorem make_move_err {b : Board} {r c : Int} {d : Direction} {e : PyErr}
    (h : b.make_move r c d = .error e) : benignErr e := by
  unfold Board.make_move at h
  rcases bind_error h with h1 | ⟨g1, h1, h⟩
  · exact modifyCell_err (fun _ _ hp => remove_peg_err hp) h1
  rcases bind_error h with h2 | ⟨g2, h2, h⟩
  · exact modifyCell_err (fun _ _ hp => remove_peg_err hp) h2
  rcases bind_error h with h3 | ⟨g3, h3, h⟩
  · exact modifyCell_err (fun _ _ hp => add_peg_err hp) h3
  · simp [pure, Except.pure] at h

theorem undo_err {b : Board} {e : PyErr} (h : b.undo_last_move = .error e) :
    benignErr e := by
  unfold Board.undo_last_move at h
  cases hls : b.moves.getLast? with
  | none =>
    rw [hls] at h
    simp only [Except.error.injEq] at h
    rw [← h]
    decide
  | some m =>
    obtain ⟨orow, ocol, dir⟩ := m
    rw [hls] at h
    rcases bind_error h with h1 | ⟨g1, h1, h⟩
    · exact modifyCell_err (fun _ _ hp => add_peg_err hp) h1
    rcases bind_error h with h2 | ⟨g2, h2, h⟩
    · exact modifyCell_err (fun _ _ hp => add_peg_err hp) h2
    rcases bind_error h with h3 | ⟨g3, h3, h⟩
    · exact modifyCell_err (fun _ _ hp => remove_peg_err hp) h3
    · simp [pure, Except.pure] at h

theorem readCell_err {b : Board} {i j : Int} {e : PyErr}
    (h : b.readCell i j = .error e) : e = .indexError := by
  unfold Board.readCell at h
  rcases bind_error h with h1 | ⟨row, hrow, h⟩
  · exact pyGet_err h1
  · exact pyGet_err h

theorem can_err {b : Board} {r c : Int} {d : Direction} {e : PyErr}
    (h : b.can_peg_move r c d = .error e) : e = .indexError := by
  unfold Board.can_peg_move at h
  split at h
  split at h
  · simp [pure, Except.pure] at h
  rcases bind_error h with h1 | ⟨o, ho, h⟩
  · exact readCell_err h1
  split at h
  · simp [pure, Except.pure] at h
  rcases bind_error h with h1 | ⟨jm, hj, h⟩
  · exact readCell_err h1
  split at h
  · simp [pure, Except.pure] at h
  rcases bind_error h with h1 | ⟨t, ht, h⟩
  · exact readCell_err h1
  split at h <;> simp [pure, Except.pure] at h

theorem tryDirsList_err {b : Board} {r c : Int} {ds : List Direction} {e : PyErr}
    (h : tryDirsList b r c ds = .error e) : benignErr e := by
  induction ds with
  | nil => simp [tryDirsList] at h
  | cons d rest ih =>
    simp only [tryDirsList] at h
    split at h
    next e' hcan =>
      simp only [Except.error.injEq] at h
      subst h
      rw [can_err hcan]
      decide
    · split at h
      next e' hmk =>
        simp only [Except.error.injEq] at h
        subst h
        exact make_move_err hmk
      · simp at h
    · exact ih h

theorem tryDirsWhile_err {b : Board} {r c : Int} {od : Option Direction} {e : PyErr}
    (h : tryDirsWhile b r c od = .error e) : benignErr e := by
  rw [tryDirsWhile_eq_chain] at h
  exact tryDirsList_err h

theorem scanRowCols_err {b : Board} {r : Int} {cs : List Int} {e : PyErr}
    (h : scanRowCols b r cs = .error e) : benignErr e := by
  induction cs with
  | nil => simp [scanRowCols] at h
  | cons c rest ih =>
    simp only [scanRowCols] at h
    split at h
    next e' hw =>
      simp only [Except.error.injEq] at h
      subst h
      exact tryDirsWhile_err hw
    · simp at h
    · exact ih h

theorem advScanRows_err {b : Board} {rs : List Int} {e : PyErr}
    (h : advScanRows b rs = .error e) : benignErr e := by
  induction rs with
  | nil => simp [advScanRows] at h
  | cons rI rest ih =>
    simp only [advScanRows] at h
    split at h
    next e' hrow =>
      simp only [Except.error.injEq] at h
      subst h
      exact scanRowCols_err hrow
    · simp at h
    · exact ih h

theorem fsRowCols_err {b : Board} {last_row last_column rI : Int} {cs : List Int}
    {e : PyErr} (h : fsRowCols b last_row last_column rI cs = .error e) : benignErr e := by
  induction cs with
  | nil => simp [fsRowCols] at h
  | cons c rest ih =>
    simp only [fsRowCols] at h
    split at h
    · simp at h
    · split at h
      · exact ih h
      · split at h
        next e' hlist =>
          simp only [Except.error.injEq] at h
          subst h
          exact tryDirsList_err hlist
        · simp at h
        · exact ih h

theorem fsRows_err {b : Board} {last_row last_column : Int} {rows : List Int} {e : PyErr}
    (h : fsRows b last_row last_column rows = .error e) : benignErr e := by
  induction rows with
  | nil => simp [fsRows] at h
  | cons rI rest ih =>
    simp only [fsRows] at h
    split at h
    next e' hrow =>
      simp only [Except.error.injEq] at h
      subst h
      exact fsRowCols_err hrow
    · simp at h
    · exact ih h

theorem backtrackLoop_err : ∀ (n : Nat) (b : Board), b.moves.length ≤ n →
    ∀ {e : PyErr}, backtrackLoop b = .error e → benignErr e := by
  intro n
  induction n with
  | zero =>
    intro b hlen e h
    have hnil : b.moves = [] := List.length_eq_zero.mp (Nat.le_zero.mp hlen)
    rw [backtrackLoop, hnil, List.getLast?_nil] at h
    simp at h
  | succ n ih =>
    intro b hlen e h
    rw [backtrackLoop] at h
    cases hls : b.moves.getLast? with
    | none => rw [hls] at h; simp at h
    | some m =>
      obtain ⟨lr, lc, ld⟩ := m
      rw [hls] at h
      simp only [] at h
      split at h
      next e' hundo =>
        simp only [Except.error.injEq] at h
        subst h
        exact undo_err hundo
      next b1 hundo =>
        split at h
        next e' hw =>
          simp only [Except.error.injEq] at h
          subst h
          exact tryDirsWhile_err hw
        · simp at h
        next hw =>
          split at h
          next e' hfs =>
            simp only [Except.error.injEq] at h
            subst h
            unfold forwardScan at hfs
            exact fsRows_err hfs
          · simp at h
          next hfs =>
            have h2 := undo_ok_shape hundo
            have hlen1 : b1.moves.length ≤ n := by
              rw [h2.1, List.length_dropLast]
              have : 0 < b.moves.length := List.length_pos.mpr h2.2.1
              omega
            exact ih b1 hlen1 h

theorem make_next_move_err {b : Board} {e : PyErr}
    (h : make_next_move b = .error e) : benignErr e := by
  unfold make_next_move at h
  split at h
  next e' hadv =>
    simp only [Except.error.injEq] at h
    subst h
    exact advScanRows_err hadv
  · simp at h
  next hadv => exact backtrackLoop_err b.moves.length b (le_refl _) h

/-! ## Reachability -/

/-- Board states reachable from the fresh board through successful
`make_move` and `undo_last_move` calls. -/
inductive Reachable : Board → Prop where
  | init : Reachable Board.init
  | move {b b' : Board} {r c : Int} {d : Direction} :
      Reachable b → b.make_move r c d = .ok b' → Reachable b'
  | undo {b b' : Board} : Reachable b → b.undo_last_move = .ok b' → Reachable b'

/-- Board states reached by successive successful solver steps. -/
inductive SolverSteps : Board → Board → Prop where
  | refl (b : Board) : SolverSteps b b
  | step {b b1 b2 : Board} :
      make_next_move b = .ok (true, b1) → SolverSteps b1 b2 → SolverSteps b b2

/-- A board value whose peg counter is already 1 (exercises the success exit
of the solve loop). -/
def onePegBoard : Board := { board := initGrid, num_pegs := 1, moves := [] }

/-- The fresh board after its first move (used as a concrete witness input). -/
def boardAfterFirstMove : Board :=
  match Board.init.make_move 1 3 .DOWN with
  | .ok b => b
  | .error _ => Board.init

/-- The board produced by the forward scan resumed at (0, 0) on the fresh
board (used as a concrete witness input). -/
def boardAfterForwardScan : Board :=
  match forwardScan Board.init 0 0 with
  | .ok (some b) => b
  | _ => Board.init

/-- Python's negative-index wraparound for a list of length `n`. -/
def pyWrap (n : Nat) (i : Int) : Nat := if 0 ≤ i then i.toNat else (i + (n : Int)).toNat

/-- `pyGet` on a 7-element list: Python semantics spelled out. -/
theorem pyGet7 {α : Type} {l : List α} (hlen : l.length = 7) (d : α) (i : Int) :
    pyGet l i = if -7 ≤ i ∧ i < 7 then .ok (l.getD (pyWrap 7 i) d)
      else .error .indexError := by
  by_cases h1 : 0 ≤ i ∧ i < (7 : Int)
  · have hidx : pyIdx l.length i = some i.toNat := by
      unfold pyIdx
      rw [hlen, if_pos ⟨h1.1, by omega⟩]
    have hi : i.toNat < l.length := by omega
    simp only [pyGet, hidx, List.getElem?_eq_getElem hi]
    rw [if_pos (show -7 ≤ i ∧ i < 7 by omega)]
    unfold pyWrap
    rw [if_pos h1.1, getD_eq_getElem d hi]
  · by_cases h2 : -7 ≤ i ∧ i < 0
    · have hcast : ((7 : Nat) : Int) = (7 : Int) := by norm_num
      have hidx : pyIdx l.length i = some (i + 7).toNat := by
        unfold pyIdx
        rw [hlen, hcast, if_neg (by omega), if_pos ⟨by omega, h2.2⟩]
      have hi : (i + 7).toNat < l.length := by omega
      simp only [pyGet, hidx, List.getElem?_eq_getElem hi]
      rw [if_pos (show -7 ≤ i ∧ i < 7 by omega)]
      unfold pyWrap
      rw [if_neg (by omega), hcast, getD_eq_getElem d hi]
    · have hidx : pyIdx l.length i = none := by
        unfold pyIdx
        rw [hlen, if_neg (by omega), if_neg (by omega)]
      simp only [pyGet, hidx]
      rw [if_neg (by omega)]

/-! ## Claim theorems -/

/-- C8: a freshly constructed Board is a 7×7 grid whose invalid cells are
exactly the four 2×2 corner blocks, with the center (3,3) valid and empty,
every other valid cell occupied, num_pegs = 32, and (0,0) invalid. -/
theorem C8_fresh_board :
    Board.init.board.length = 7 ∧
    (∀ row ∈ Board.init.board, row.length = 7) ∧
    Board.init.num_pegs = 32 ∧
    (cellN Board.init.board 0 0).is_valid_position = false ∧
    cellN Board.init.board 3 3 = cellEmptyV ∧
    (∀ i, i < 7 → ∀ j, j < 7 →
      ((cellN Board.init.board i j).is_valid_position = false ↔
        ((i < 2 ∨ 5 ≤ i) ∧ (j < 2 ∨ 5 ≤ j))) ∧
      (((i < 2 ∨ 5 ≤ i) ∧ (j < 2 ∨ 5 ≤ j)) ∨ (i = 3 ∧ j = 3) ∨
        cellN Board.init.board i j = cellOccV)) :=
  ⟨by decide, by decide, by decide, by decide, by decide, by decide⟩

/-- C8 witness: the invalid-iff-corner characterization at (0, 0). -/
theorem C8_fresh_board_witness :
    (cellN Board.init.board 0 0).is_valid_position = false ↔
      ((0 < 2 ∨ 5 ≤ 0) ∧ (0 < 2 ∨ 5 ≤ 0)) :=
  (C8_fresh_board.2.2.2.2.2 0 (by decide) 0 (by decide)).1

/-- C9 counterexample: `get_peg (-1) 0` has a negative row index, yet it
returns a cell (Python wraps the index) instead of failing. -/
theorem C9_counterexample :
    ((-1 : Int) < 0) ∧ Board.init.get_peg (-1) 0 = .ok PegPosition.invalidPos :=
  ⟨by decide, by rfl⟩

/-- C9 (amended): `get_peg` fails with IndexError exactly for indices outside
Python's accepted range [-7, 7); indices in [-7, -1] wrap around (index + 7). -/
theorem C9_amended_get_peg {b : Board} (hwf : b.WF) (r c : Int) :
    ((r < -7 ∨ 7 ≤ r ∨ c < -7 ∨ 7 ≤ c) → b.get_peg r c = .error .indexError) ∧
    (-7 ≤ r → r < 7 → -7 ≤ c → c < 7 →
      b.get_peg r c = .ok (cellN b.board (pyWrap 7 r) (pyWrap 7 c))) := by
  have hlen : b.board.length = 7 := by rw [hwf.1, BR_eq]
  have hrowlen : ∀ i : Nat, i < 7 → (b.board.getD i []).length = 7 := by
    intro i hi
    rw [gridWF_rowLen hwf (by rw [BR_eq]; omega), BC_eq]
  have hwrap : ∀ i : Int, pyWrap 7 i < 7 → True := fun _ _ => trivial
  constructor
  · intro hout
    unfold Board.get_peg
    by_cases hrin : -7 ≤ r ∧ r < 7
    · rw [pyGet7 hlen [] r, if_pos hrin]
      simp only [ok_bind]
      have hw : pyWrap 7 r < 7 := by unfold pyWrap; split <;> omega
      rw [pyGet7 (hrowlen _ hw) PegPosition.invalidPos c, if_neg (by omega)]
    · rw [pyGet7 hlen [] r, if_neg (by omega)]
      rfl
  · intro h1 h2 h3 h4
    unfold Board.get_peg
    rw [pyGet7 hlen [] r, if_pos ⟨h1, h2⟩]
    simp only [ok_bind]
    have hw : pyWrap 7 r < 7 := by unfold pyWrap; split <;> omega
    rw [pyGet7 (hrowlen _ hw) PegPosition.invalidPos c, if_pos ⟨h3, h4⟩]
    rfl

/-- C9 witness: row index 7 is out of bounds and raises IndexError. -/
theorem C9_amended_witness : Board.init.get_peg 7 0 = .error .indexError :=
  (C9_amended_get_peg (by decide) 7 0).1 (by omega)

/-- C4: for an in-grid origin, `can_peg_move` never raises; it returns false
whenever the target is out of bounds and otherwise computes exactly the
three-condition legality rule (origin valid+occupied, jump valid+occupied,
target valid+empty). -/
theorem C4_legality {b : Board} (hwf : b.WF) {r c : Int} (hr0 : 0 ≤ r) (hr1 : r < 7)
    (hc0 : 0 ≤ c) (hc1 : c < 7) (d : Direction) :
    b.can_peg_move r c d = .ok (legalSpec b r c d) ∧
    (((generate_jump_and_target_coords r c d).2.1 < 0 ∨
      7 ≤ (generate_jump_and_target_coords r c d).2.1 ∨
      (generate_jump_and_target_coords r c d).2.2 < 0 ∨
      7 ≤ (generate_jump_and_target_coords r c d).2.2) →
      b.can_peg_move r c d = .ok false) := by
  have hmain := can_eq_legalSpec hwf hr0 (by rw [BR_cast]; omega) hc0
    (by rw [BC_cast]; omega) d
  refine ⟨hmain, fun hoob => ?_⟩
  rw [hmain]
  have hfalse : legalSpec b r c d = false := by
    simp only [legalSpec]
    split
    · rfl
    next hC =>
      exfalso
      rw [BR_cast, BC_cast] at hC
      omega
  rw [hfalse]

/-- C4 witness: the characterization at the fresh board's first legal move. -/
theorem C4_legality_witness :
    Board.init.can_peg_move 1 3 .DOWN = .ok (legalSpec Board.init 1 3 .DOWN) ∧
    (((generate_jump_and_target_coords 1 3 .DOWN).2.1 < 0 ∨
      7 ≤ (generate_jump_and_target_coords 1 3 .DOWN).2.1 ∨
      (generate_jump_and_target_coords 1 3 .DOWN).2.2 < 0 ∨
      7 ≤ (generate_jump_and_target_coords 1 3 .DOWN).2.2) →
      Board.init.can_peg_move 1 3 .DOWN = .ok false) :=
  C4_legality (by decide) (by decide) (by decide) (by decide) (by decide) .DOWN

/-- C2: applying a legal move and then undoing it restores the whole board —
every cell, the peg count and the move log. -/
theorem C2_make_undo_roundtrip {b : Board} (hwf : b.WF) (hinv : GridInv b.board)
    {r c : Int} {d : Direction} (hr0 : 0 ≤ r) (hr7 : r < 7) (hc0 : 0 ≤ c) (hc7 : c < 7)
    (hlegal : b.can_peg_move r c d = .ok true) :
    (b.make_move r c d >>= Board.undo_last_move) = .ok b := by
  have hl : legalSpec b r c d = true := by
    have h := can_eq_legalSpec hwf hr0 (by rw [BR_cast]; omega) hc0
      (by rw [BC_cast]; omega) d
    rw [h] at hlegal
    simpa using hlegal
  exact make_undo_roundtrip hwf hinv hr0 hr7 hc0 hc7 hl

/-- C2 witness: the round trip at the fresh board's move (1,3,Down). -/
theorem C2_make_undo_roundtrip_witness :
    (Board.init.make_move 1 3 .DOWN >>= Board.undo_last_move) = .ok Board.init :=
  C2_make_undo_roundtrip (by decide) (by decide) (by decide) (by decide) (by decide)
    (by decide) (by rfl)

/-- C3: on every reachable board, the move-log length equals the initial peg
count minus the current peg count; this holds after construction and is
preserved by every successful `make_move` and `undo_last_move`. -/
theorem C3_log_count_invariant {b : Board} (h : Reachable b) :
    (b.moves.length : Int) = Board.init.num_pegs - b.num_pegs := by
  induction h with
  | init => decide
  | move hreach hmk ih =>
    obtain ⟨hnum, hmoves⟩ := make_move_ok_shape hmk
    rw [hnum, hmoves]
    simp only [List.length_append, List.length_cons, List.length_nil]
    push_cast
    omega
  | undo hreach hu ih =>
    obtain ⟨hmoves, hne, hnum⟩ := undo_ok_shape hu
    rw [hnum, hmoves, List.length_dropLast]
    have hpos := List.length_pos.mpr hne
    omega

/-- C3 witness: the invariant at the freshly constructed board. -/
theorem C3_log_count_witness :
    (Board.init.moves.length : Int) = Board.init.num_pegs - Board.init.num_pegs :=
  C3_log_count_invariant Reachable.init

/-- Cell values after a legal move, generic in the jump/target coordinates. -/
theorem make_cells_core {b : Board} (hwf : gridWF b.board) {r c j1v j2v t1v t2v : Int}
    {d : Direction} (hco : generate_jump_and_target_coords r c d = ((j1v, j2v), (t1v, t2v)))
    (hr0 : 0 ≤ r) (hr7 : r < 7) (hc0 : 0 ≤ c) (hc7 : c < 7)
    (hj10 : 0 ≤ j1v) (hj17 : j1v < 7) (hj20 : 0 ≤ j2v) (hj27 : j2v < 7)
    (ht10 : 0 ≤ t1v) (ht17 : t1v < 7) (ht20 : 0 ≤ t2v) (ht27 : t2v < 7)
    (hJO : j1v.toNat ≠ r.toNat ∨ j2v.toNat ≠ c.toNat)
    (hTO : t1v.toNat ≠ r.toNat ∨ t2v.toNat ≠ c.toNat)
    (hTJ : t1v.toNat ≠ j1v.toNat ∨ t2v.toNat ≠ j2v.toNat)
    (hleg : legalSpec b r c d = true) :
    (b.make_move r c d).map (fun b' => (cellN b'.board r.toNat c.toNat,
      cellN b'.board j1v.toNat j2v.toNat, cellN b'.board t1v.toNat t2v.toNat,
      b'.num_pegs, b'.moves))
    = .ok (cellEmptyV, cellEmptyV, cellOccV, b.num_pegs - 1, b.moves ++ [(r, c, d)]) := by
  rw [make_move_legal_eq hwf hr0 hr7 hc0 hc7 hleg]
  simp only [Except.map, jumpN, targetN, hco]
  have hwfO := @gridWF_setCellN _ hwf r.toNat (by rw [BR_eq]; omega) c.toNat cellEmptyV
  have hwfJ := @gridWF_setCellN _ hwfO j1v.toNat (by rw [BR_eq]; omega) j2v.toNat cellEmptyV
  have e1 : cellN (setCellN (setCellN (setCellN b.board r.toNat c.toNat cellEmptyV)
      j1v.toNat j2v.toNat cellEmptyV) t1v.toNat t2v.toNat cellOccV) r.toNat c.toNat
      = cellEmptyV := by
    rw [cellN_setCellN_ne _ hTO, cellN_setCellN_ne _ hJO,
      cellN_setCellN_selfWF hwf (by omega) (by omega)]
  have e2 : cellN (setCellN (setCellN (setCellN b.board r.toNat c.toNat cellEmptyV)
      j1v.toNat j2v.toNat cellEmptyV) t1v.toNat t2v.toNat cellOccV) j1v.toNat j2v.toNat
      = cellEmptyV := by
    rw [cellN_setCellN_ne _ hTJ, cellN_setCellN_selfWF hwfO (by omega) (by omega)]
  have e3 : cellN (setCellN (setCellN (setCellN b.board r.toNat c.toNat cellEmptyV)
      j1v.toNat j2v.toNat cellEmptyV) t1v.toNat t2v.toNat cellOccV) t1v.toNat t2v.toNat
      = cellOccV :=
    cellN_setCellN_selfWF hwfJ (by omega) (by omega) _
  rw [e1, e2, e3]

/-- C5: on any well-formed board, a legal move empties the origin and jump
cells, occupies the target cell, decrements num_pegs by exactly one and
appends the move to the log; concretely, (1,3,Down) on the fresh board
empties (1,3) and (2,3), occupies (3,3) and leaves 31 pegs. -/
theorem C5_make_move_effect :
    (∀ (b : Board) (r c : Int) (d : Direction), b.WF →
      0 ≤ r → r < 7 → 0 ≤ c → c < 7 → legalSpec b r c d = true →
      (b.make_move r c d).map (fun b' => (cellN b'.board r.toNat c.toNat,
        cellN b'.board (jumpN r c d).1 (jumpN r c d).2,
        cellN b'.board (targetN r c d).1 (targetN r c d).2,
        b'.num_pegs, b'.moves))
      = .ok (cellEmptyV, cellEmptyV, cellOccV, b.num_pegs - 1, b.moves ++ [(r, c, d)])) ∧
    (Board.init.make_move 1 3 .DOWN).map (fun b' => (cellN b'.board 1 3,
      cellN b'.board 2 3, cellN b'.board 3 3, b'.num_pegs))
      = .ok (cellEmptyV, cellEmptyV, cellOccV, 31) := by
  constructor
  · intro b r c d hwf hr0 hr7 hc0 hc7 hleg
    have tb := legal_target_bounds hleg
    cases d
    case UP =>
      simp only [generate_jump_and_target_coords] at tb
      simp only [jumpN, targetN, generate_jump_and_target_coords]
      exact make_cells_core hwf rfl hr0 hr7 hc0 hc7 (by omega) (by omega) hc0 hc7
        (by omega) (by omega) hc0 hc7 (Or.inl (by omega)) (Or.inl (by omega))
        (Or.inl (by omega)) hleg
    case RIGHT =>
      simp only [generate_jump_and_target_coords] at tb
      simp only [jumpN, targetN, generate_jump_and_target_coords]
      exact make_cells_core hwf rfl hr0 hr7 hc0 hc7 hr0 hr7 (by omega) (by omega)
        hr0 hr7 (by omega) (by omega) (Or.inr (by omega)) (Or.inr (by omega))
        (Or.inr (by omega)) hleg
    case DOWN =>
      simp only [generate_jump_and_target_coords] at tb
      simp only [jumpN, targetN, generate_jump_and_target_coords]
      exact make_cells_core hwf rfl hr0 hr7 hc0 hc7 (by omega) (by omega) hc0 hc7
        (by omega) (by omega) hc0 hc7 (Or.inl (by omega)) (Or.inl (by omega))
        (Or.inl (by omega)) hleg
    case LEFT =>
      simp only [generate_jump_and_target_coords] at tb
      simp only [jumpN, targetN, generate_jump_and_target_coords]
      exact make_cells_core hwf rfl hr0 hr7 hc0 hc7 hr0 hr7 (by omega) (by omega)
        hr0 hr7 (by omega) (by omega) (Or.inr (by omega)) (Or.inr (by omega))
        (Or.inr (by omega)) hleg
  · rfl

/-- C5 witness: the general cell/count/log effect at (1,3,Down) on the
fresh board. -/
theorem C5_make_move_effect_witness :
    (Board.init.make_move 1 3 .DOWN).map (fun b' => (cellN b'.board (1 : Int).toNat
      (3 : Int).toNat, cellN b'.board (jumpN 1 3 .DOWN).1 (jumpN 1 3 .DOWN).2,
      cellN b'.board (targetN 1 3 .DOWN).1 (targetN 1 3 .DOWN).2,
      b'.num_pegs, b'.moves))
    = .ok (cellEmptyV, cellEmptyV, cellOccV, Board.init.num_pegs - 1,
        Board.init.moves ++ [(1, 3, .DOWN)]) :=
  C5_make_move_effect.1 Board.init 1 3 .DOWN (by decide) (by decide) (by decide)
    (by decide) (by decide) (by decide)

/-- C10: the structural cell invariant (valid cells have `is_empty`
complementary to `peg_present`; invalid cells have both flags clear) holds on
the fresh board and is preserved by make_move and undo_last_move, and invalid
cells are never mutated — `add_peg`/`remove_peg` raise on them. -/
theorem C10_structural_invariant :
    (∀ p : PegPosition, p.is_valid_position = false →
      p.add_peg = .error (.valueError "Not a valid location for a peg") ∧
      p.remove_peg = .error (.valueError "Not a valid location for a peg")) ∧
    GridInv Board.init.board ∧
    (∀ (b b' : Board) (r c : Int) (d : Direction), b.make_move r c d = .ok b' →
      (GridInv b.board → GridInv b'.board) ∧
      (∀ i j : Nat, (cellN b.board i j).is_valid_position = false →
        cellN b'.board i j = cellN b.board i j)) ∧
    (∀ b b' : Board, b.undo_last_move = .ok b' →
      (GridInv b.board → GridInv b'.board) ∧
      (∀ i j : Nat, (cellN b.board i j).is_valid_position = false →
        cellN b'.board i j = cellN b.board i j)) := by
  refine ⟨?_, by decide, ?_, ?_⟩
  · intro p hp
    obtain ⟨pp, ie, vp⟩ := p
    simp only at hp
    subst hp
    exact ⟨rfl, rfl⟩
  · intro b b' r c d h
    exact ⟨make_move_gridInv h, make_move_invalid_unchanged h⟩
  · intro b b' h
    exact ⟨undo_gridInv h, undo_invalid_unchanged h⟩

/-- C10 witness: the invariant carries over the fresh board's first move. -/
theorem C10_structural_invariant_witness : GridInv boardAfterFirstMove.board :=
  (C10_structural_invariant.2.2.1 Board.init boardAfterFirstMove 1 3 .DOWN (by rfl)).1
    C10_structural_invariant.2.1

/-- C6: the advance phase of `make_next_move` applies exactly the first
legal move in row-major cell order with direction order Up, Right, Down,
Left — returning true — and falls through to the backtracking loop exactly
when that scan finds no legal move. -/
theorem C6_advance_phase {b : Board} (hwf : b.WF) :
    (make_next_move b =
      match firstLegal b with
      | none => backtrackLoop b
      | some (r, c, d) => (b.make_move r c d).map (fun b2 => (true, b2))) ∧
    (∀ r c d, firstLegal b = some (r, c, d) → (b.make_move r c d).isOk = true) := by
  refine ⟨make_next_move_eq b hwf, ?_⟩
  intro r c d hf
  have hmem := List.mem_of_find?_eq_some hf
  have hcb : canB b (r, c, d) = true := List.find?_some hf
  simp only [advanceOrder, List.mem_flatMap, List.mem_map] at hmem
  obtain ⟨rr, hrr, cc, hcc, dd, hdd, heq⟩ := hmem
  obtain ⟨heq1, heq2, heq3⟩ : r = rr ∧ c = cc ∧ d = dd := by
    have h1 := congrArg Prod.fst heq
    have h2 := congrArg (fun x => x.2.1) heq
    have h3 := congrArg (fun x => x.2.2) heq
    exact ⟨h1.symm, h2.symm, h3.symm⟩
  subst heq1 heq2 heq3
  obtain ⟨hr0, hr1⟩ := intRange_mem hrr
  obtain ⟨hc0, hc1⟩ := intRange_mem hcc
  have hcan : b.can_peg_move r c d = .ok true := by
    unfold canB at hcb
    split at hcb
    next hcm => exact hcm
    next hcm => simp at hcb
  have hleg : legalSpec b r c d = true := by
    have h := can_eq_legalSpec hwf hr0 (by rw [BR_cast] at hr1 ⊢; omega) hc0
      (by rw [BC_cast] at hc1 ⊢; omega) d
    rw [h] at hcan
    simpa using hcan
  rw [make_move_legal_eq hwf hr0 (by rw [BR_cast] at hr1; omega) hc0
    (by rw [BC_cast] at hc1; omega) hleg]
  rfl

/-- C6 witness: on the fresh board the scan's first legal move is (1,3,Down)
and applying it succeeds. -/
theorem C6_advance_phase_witness :
    firstLegal Board.init = some (1, 3, .DOWN) ∧
    (Board.init.make_move 1 3 .DOWN).isOk = true :=
  ⟨by rfl, (C6_advance_phase (by decide)).2 1 3 .DOWN (by rfl)⟩

/-- C7: in the backtrack phase's forward scan, the row-skip (break) condition
is true as soon as the scan reaches the final row (index 6) — before any
direction is tested there — so the forward scan never applies a move whose
origin lies in the final row. -/
theorem C7_forward_scan_last_row :
    (∀ (b : Board) (last_row last_column c : Int) (rest : List Int),
      c + 1 ≤ (b.max_columns : Int) →
      fsRowCols b last_row last_column 6 (c :: rest) = .ok none) ∧
    (∀ (b : Board) (last_row last_column : Int),
      fsRowCols b last_row last_column 6 (intRange b.max_columns) = .ok none) ∧
    (∀ (b : Board) (last_row last_column : Int) (b2 : Board),
      forwardScan b last_row last_column = .ok (some b2) →
      ∃ rI c d, b2.moves.getLast? = some (rI, c, d) ∧ rI < 6) :=
  ⟨fun _ _ _ _ _ hc => fsRowCols_break hc,
   fun b lr lc => fsRowCols_row6 b lr lc,
   fun _ _ _ _ h => forwardScan_no_last_row h⟩

/-- C7 witness: the row-6 skip on the fresh board, and the forward scan from
(0,0) applying a move with origin row 1. -/
theorem C7_forward_scan_witness :
    fsRowCols Board.init 0 0 6 (intRange Board.init.max_columns) = .ok none ∧
    (∃ rI c d, boardAfterForwardScan.moves.getLast? = some (rI, c, d) ∧ rI < 6) :=
  ⟨C7_forward_scan_last_row.2.1 Board.init 0 0,
   C7_forward_scan_last_row.2.2 Board.init 0 0 boardAfterForwardScan (by rfl)⟩

/-- C1: the solve loop returns a move sequence only from a state with peg
count exactly 1, and raises the no-solution ValueError only when some
reached state with peg count above 1 admits no further move. -/
theorem C1_solve_classification : ∀ (fuel : Nat) (b : Board), 1 ≤ b.num_pegs →
    (∀ seq, get_any_solution fuel b = .ok (some seq) →
      ∃ b', SolverSteps b b' ∧ b'.num_pegs = 1 ∧ seq = b'.moves) ∧
    (get_any_solution fuel b = .error (.valueError "No solutions found!") →
      ∃ b' bx, SolverSteps b b' ∧ 1 < b'.num_pegs ∧
        make_next_move b' = .ok (false, bx)) := by
  intro fuel
  induction fuel with
  | zero =>
    intro b hb
    constructor
    · intro seq h
      simp [get_any_solution] at h
    · intro h
      simp [get_any_solution] at h
  | succ fuel ih =>
    intro b hb
    constructor
    · intro seq h
      simp only [get_any_solution] at h
      split at h
      next hne =>
        split at h
        · simp at h
        · simp at h
        next b' hmk =>
          have hge := make_next_move_num hmk
          have hb' : 1 ≤ b'.num_pegs := by omega
          obtain ⟨b'', hsteps, h1, h2⟩ := (ih b' hb').1 seq h
          exact ⟨b'', SolverSteps.step hmk hsteps, h1, h2⟩
      next hne =>
        simp only [Except.ok.injEq, Option.some.injEq] at h
        exact ⟨b, SolverSteps.refl b, by omega, h.symm⟩
    · intro h
      simp only [get_any_solution] at h
      split at h
      next hne =>
        split at h
        next e hmk =>
          simp only [Except.error.injEq] at h
          subst h
          exact absurd rfl (make_next_move_err hmk)
        next bx hmk =>
          exact ⟨b, bx, SolverSteps.refl b, by omega, hmk⟩
        next b' hmk =>
          have hge := make_next_move_num hmk
          have hb' : 1 ≤ b'.num_pegs := by omega
          obtain ⟨b'', bx, hsteps, h1, h2⟩ := (ih b' hb').2 h
          exact ⟨b'', bx, SolverSteps.step hmk hsteps, h1, h2⟩
      next hne => simp at h

/-- C1 witness: a board whose counter is already 1 returns its (empty) move
log, coming from a state with peg count 1. -/
theorem C1_solve_classification_witness :
    (1 : Int) ≤ onePegBoard.num_pegs ∧
    (∃ b', SolverSteps onePegBoard b' ∧ b'.num_pegs = 1 ∧ ([] : List Move) = b'.moves) :=
  ⟨by decide, (C1_solve_classification 1 onePegBoard (by decide)).1 [] (by rfl)⟩

end HiQ
